import Mathlib

set_option maxRecDepth 100000

/-!
Verification of the incremental code-indexing engine of a Git-aware code
retrieval service (chunker, diff model, point lifecycle in the vector
store, and the full / incremental indexing routines).

Embedding conventions:
* Python strings are modelled as lists of characters (`Str`).
* Python ints are `Int` where the source can go negative (line arithmetic
  in `DiffUtil.translate`) and `Nat` for byte offsets and sizes.
* The external Qdrant vector store is modelled as a list of points with
  Qdrant's upsert / set-payload / scroll / delete semantics; each indexing
  routine becomes a pure state transformer on that list.
* sha256 / sha1 / UUIDv5 are implemented concretely so that hashes and
  point ids compute.
-/

/-- Python strings, modelled as lists of characters. -/
abbrev Str := List Char

/-- The newline character, written via its code point. -/
def chNL : Char := Char.ofNat 10

/-- The carriage-return character. -/
def chCR : Char := Char.ofNat 13

/-- `pat.isPre s`: does `s` start with `pat`?  (Python `str.startswith`.) -/
def isPre : Str → Str → Bool
  | [], _ => true
  | _ :: _, [] => false
  | p :: ps, c :: cs => decide (p = c) && isPre ps cs

/-- Python slice `s[a:b]` (with `0 ≤ a ≤ b` clamping as in Python for
the in-range uses appearing in the sources). -/
def pySlice (s : Str) (a b : Nat) : Str := (s.drop a).take (b - a)

-- ----------------------- diff + translation -----------------------

/-- `Range` from `git_aware_code_indexer.py`: 1-based inclusive line
interval, byte interval into the file, and the relocalization flag. -/
structure Range where
  start_line : Int
  end_line : Int
  byte_start : Nat
  byte_end : Nat
  relocalize : Bool := false
deriving DecidableEq

/-- `Hunk` from `git_aware_code_indexer.py`. -/
structure Hunk where
  base_start : Int
  base_len : Int
  head_start : Int
  head_len : Int
deriving DecidableEq

namespace DiffUtil

/-- One iteration of the loop body of `DiffUtil.translate`, acting on the
mutable `(start, end, rel)` triple. -/
def translateStep (acc : Int × Int × Bool) (h : Hunk) : Int × Int × Bool :=
  let delta := h.head_len - h.base_len
  let baseEnd := h.base_start + h.base_len
  if baseEnd ≤ acc.1 then (acc.1 + delta, acc.2.1 + delta, acc.2.2)
  else if h.base_start < acc.2.1 ∧ baseEnd > acc.1 then (acc.1, acc.2.1, true)
  else acc

/-- `DiffUtil.translate`: translate a base-revision range across a list of
diff hunks (the byte interval is returned unchanged). -/
def translate (r : Range) (hunks : List Hunk) : Range :=
  let f := hunks.foldl translateStep (r.start_line, r.end_line, r.relocalize)
  ⟨f.1, f.2.1, r.byte_start, r.byte_end, f.2.2⟩

end DiffUtil

/-- The translation behaviour asserted by claim C4, read literally: every
hunk is classified against the ORIGINAL range `r` (shift hunks are those
ending at or before `r`'s start line; overlap is tested against `r`'s own
interval), and all qualifying shifts are summed. -/
def translateClaimC4 (r : Range) (hunks : List Hunk) : Range :=
  let delta := (hunks.filter
      (fun h => decide (h.base_start + h.base_len ≤ r.start_line))).foldl
      (fun a h => a + (h.head_len - h.base_len)) 0
  let overl := hunks.any
      (fun h => decide (h.base_start < r.end_line ∧ h.base_start + h.base_len > r.start_line))
  ⟨r.start_line + delta, r.end_line + delta, r.byte_start, r.byte_end,
    r.relocalize || overl⟩

/-- The amended per-hunk description of `DiffUtil.translate`: hunks are
processed in order, each classified against the RUNNING (already shifted)
interval; a hunk ending at or before the current start shifts both
endpoints by `head_len - base_len`, a hunk overlapping the current
interval sets `relocalize`, any other hunk is ignored. -/
def translateSeq (r : Range) : List Hunk → Range
  | [] => r
  | h :: t =>
    let delta := h.head_len - h.base_len
    let baseEnd := h.base_start + h.base_len
    if baseEnd ≤ r.start_line then
      translateSeq ⟨r.start_line + delta, r.end_line + delta, r.byte_start, r.byte_end, r.relocalize⟩ t
    else if h.base_start < r.end_line ∧ baseEnd > r.start_line then
      translateSeq ⟨r.start_line, r.end_line, r.byte_start, r.byte_end, true⟩ t
    else translateSeq r t

/-- A strictly ascending, pairwise disjoint hunk list (each hunk's base
interval ends at or before the next hunk's base start). -/
def HunksAscendingDisjoint : List Hunk → Prop
  | [] => True
  | [_] => True
  | a :: b :: t => a.base_start + a.base_len ≤ b.base_start ∧ HunksAscendingDisjoint (b :: t)

instance decHunksAscendingDisjoint : (hs : List Hunk) → Decidable (HunksAscendingDisjoint hs)
  | [] => isTrue trivial
  | [_] => isTrue trivial
  | _ :: b :: t =>
    have := decHunksAscendingDisjoint (b :: t)
    inferInstanceAs (Decidable (_ ∧ _))

lemma translateStep_rel_true (s e : Int) (h : Hunk) :
    ((DiffUtil.translateStep (s, e, true) h)).2.2 = true := by
  unfold DiffUtil.translateStep
  dsimp only
  split
  · rfl
  · split <;> rfl

lemma foldl_translateStep_rel_true (hs : List Hunk) :
    ∀ (s e : Int), (hs.foldl DiffUtil.translateStep (s, e, true)).2.2 = true := by
  induction hs with
  | nil => intro s e; rfl
  | cons h t ih =>
    intro s e
    rw [List.foldl_cons]
    rcases e1 : DiffUtil.translateStep (s, e, true) h with ⟨s', e', r'⟩
    have : r' = true := by
      have := translateStep_rel_true s e h
      rw [e1] at this
      exact this
    subst this
    exact ih s' e'

lemma translate_eq_translateSeq_aux (t : List Hunk) :
    ∀ (s e : Int) (b1 b2 : Nat) (rel : Bool),
      (⟨(t.foldl DiffUtil.translateStep (s, e, rel)).1,
        (t.foldl DiffUtil.translateStep (s, e, rel)).2.1, b1, b2,
        (t.foldl DiffUtil.translateStep (s, e, rel)).2.2⟩ : Range)
      = translateSeq ⟨s, e, b1, b2, rel⟩ t := by
  induction t with
  | nil => intro s e b1 b2 rel; rfl
  | cons h t ih =>
    intro s e b1 b2 rel
    rw [List.foldl_cons]
    unfold translateSeq
    dsimp only
    by_cases c1 : h.base_start + h.base_len ≤ s
    · rw [if_pos c1]
      have estep : DiffUtil.translateStep (s, e, rel) h
          = (s + (h.head_len - h.base_len), e + (h.head_len - h.base_len), rel) := by
        unfold DiffUtil.translateStep
        dsimp only
        rw [if_pos c1]
      rw [estep]
      exact ih _ _ b1 b2 rel
    · rw [if_neg c1]
      by_cases c2 : h.base_start < e ∧ h.base_start + h.base_len > s
      · rw [if_pos c2]
        have estep : DiffUtil.translateStep (s, e, rel) h = (s, e, true) := by
          unfold DiffUtil.translateStep
          dsimp only
          rw [if_neg c1, if_pos c2]
        rw [estep]
        exact ih _ _ b1 b2 true
      · rw [if_neg c2]
        have estep : DiffUtil.translateStep (s, e, rel) h = (s, e, rel) := by
          unfold DiffUtil.translateStep
          dsimp only
          rw [if_neg c1, if_neg c2]
        rw [estep]
        exact ih _ _ b1 b2 rel

lemma translate_eq_translateSeq (r : Range) (hs : List Hunk) :
    DiffUtil.translate r hs = translateSeq r hs := by
  cases r with
  | mk s e b1 b2 rel => exact translate_eq_translateSeq_aux hs s e b1 b2 rel

/-- Claim C4 (counterexample): read literally — with every shift hunk
classified against the ORIGINAL range — the claim fails on an ascending,
disjoint hunk list: a large insertion before the chunk moves the running
start past a later hunk, which the loop then also counts as a shift.
`translate` yields `Range(111,116)` where the literal reading demands
`Range(114,119)`. -/
theorem claim_C4_counterexample :
    HunksAscendingDisjoint [⟨1, 1, 1, 100⟩, ⟨20, 4, 30, 1⟩] ∧
    DiffUtil.translate ⟨15, 20, 0, 0, false⟩ [⟨1, 1, 1, 100⟩, ⟨20, 4, 30, 1⟩]
      = ⟨111, 116, 0, 0, false⟩ ∧
    translateClaimC4 ⟨15, 20, 0, 0, false⟩ [⟨1, 1, 1, 100⟩, ⟨20, 4, 30, 1⟩]
      = ⟨114, 119, 0, 0, false⟩ ∧
    DiffUtil.translate ⟨15, 20, 0, 0, false⟩ [⟨1, 1, 1, 100⟩, ⟨20, 4, 30, 1⟩]
      ≠ translateClaimC4 ⟨15, 20, 0, 0, false⟩ [⟨1, 1, 1, 100⟩, ⟨20, 4, 30, 1⟩] := by
  refine ⟨by decide, by decide, by decide, by decide⟩

/-- Claim C4 (amended): `DiffUtil.translate` processes hunks in order and
classifies each against the RUNNING (already shifted) interval — a hunk
ending at or before the current start shifts both endpoints by
`head_len - base_len`, an overlapping hunk leaves the endpoints and sets
`relocalize`, all other hunks are ignored; in particular the two concrete
examples of the claim hold: `Range(100,120)` with `Hunk(10,3,10,10)`
yields `Range(107,127)` with `relocalize = false`, and `Range(15,20)` with
`Hunk(18,4,18,1)` yields unchanged endpoints with `relocalize = true`. -/
theorem claim_C4_amended :
    (∀ (r : Range) (hs : List Hunk), DiffUtil.translate r hs = translateSeq r hs) ∧
    DiffUtil.translate ⟨100, 120, 10, 50, false⟩ [⟨10, 3, 10, 10⟩]
      = ⟨107, 127, 10, 50, false⟩ ∧
    DiffUtil.translate ⟨15, 20, 3, 9, false⟩ [⟨18, 4, 18, 1⟩]
      = ⟨15, 20, 3, 9, true⟩ := by
  refine ⟨translate_eq_translateSeq, by decide, by decide⟩

/-- Claim C10: translation never touches the byte interval, and never
clears an already-set `relocalize` flag. -/
theorem claim_C10_translate_frame (r : Range) (hs : List Hunk) :
    (DiffUtil.translate r hs).byte_start = r.byte_start ∧
    (DiffUtil.translate r hs).byte_end = r.byte_end ∧
    (r.relocalize = true → (DiffUtil.translate r hs).relocalize = true) := by
  refine ⟨rfl, rfl, ?_⟩
  intro hrel
  show (hs.foldl DiffUtil.translateStep (r.start_line, r.end_line, r.relocalize)).2.2 = true
  rw [hrel]
  exact foldl_translateStep_rel_true hs r.start_line r.end_line

/-- Witness for C10 at a concrete pre-flagged range. -/
theorem claim_C10_translate_frame_witness :
    (DiffUtil.translate ⟨5, 9, 2, 7, true⟩ [⟨1, 2, 1, 6⟩]).byte_start = 2 ∧
    (DiffUtil.translate ⟨5, 9, 2, 7, true⟩ [⟨1, 2, 1, 6⟩]).byte_end = 7 ∧
    (DiffUtil.translate ⟨5, 9, 2, 7, true⟩ [⟨1, 2, 1, 6⟩]).relocalize = true := by
  obtain ⟨h1, h2, h3⟩ := claim_C10_translate_frame ⟨5, 9, 2, 7, true⟩ [⟨1, 2, 1, 6⟩]
  exact ⟨h1, h2, h3 rfl⟩

-- ----------------------- sha256 / sha1 / uuid5 -----------------------

/-- Truncation to a 32-bit word. -/
def w32 (x : Nat) : Nat := x % 4294967296

/-- 32-bit right rotation. -/
def rotr32 (n x : Nat) : Nat := ((x >>> n) ||| (x <<< (32 - n))) &&& 4294967295

/-- 32-bit left rotation. -/
def rotl32 (n x : Nat) : Nat := ((x <<< n) ||| (x >>> (32 - n))) &&& 4294967295

/-- Big-endian byte serialization of `n` into `k` bytes. -/
def natToBytesBE (k : Nat) (n : Nat) : List Nat :=
  (List.range k).map (fun i => (n >>> (8 * (k - 1 - i))) % 256)

/-- Big-endian 32-bit words from a byte list (length a multiple of 4). -/
def bytesToWordsBE : List Nat → List Nat
  | b0 :: b1 :: b2 :: b3 :: rest =>
    (((b0 * 256 + b1) * 256 + b2) * 256 + b3) :: bytesToWordsBE rest
  | _ => []

/-- Merkle–Damgård padding shared by sha256 and sha1: append `0x80`,
zero-pad to 56 mod 64, append the bit length as 8 big-endian bytes. -/
def mdPad (msg : List Nat) : List Nat :=
  let l := msg.length
  let k := (119 - (l % 64)) % 64
  msg ++ (128 :: List.replicate k 0) ++ natToBytesBE 8 (l * 8)

/-- Split a word list into 16-word blocks (fuel-based structural recursion
so that the kernel can evaluate it; the fuel is the list length, which
bounds the number of blocks). -/
def blocks16Go : Nat → List Nat → List (List Nat)
  | 0, _ => []
  | _, [] => []
  | fuel + 1, l@(_ :: _) => l.take 16 :: blocks16Go fuel (l.drop 16)

/-- Split a word list into 16-word blocks. -/
def blocks16 (l : List Nat) : List (List Nat) := blocks16Go l.length l

/-- The eight-word working state of sha256. -/
structure H8 where
  a : Nat
  b : Nat
  c : Nat
  d : Nat
  e : Nat
  f : Nat
  g : Nat
  h : Nat

/-- sha256 round constants. -/
def sha256K : List Nat :=
  [1116352408, 1899447441, 3049323471, 3921009573, 961987163, 1508970993,
   2453635748, 2870763221, 3624381080, 310598401, 607225278, 1426881987,
   1925078388, 2162078206, 2614888103, 3248222580, 3835390401, 4022224774,
   264347078, 604807628, 770255983, 1249150122, 1555081692, 1996064986,
   2554220882, 2821834349, 2952996808, 3210313671, 3336571891, 3584528711,
   113926993, 338241895, 666307205, 773529912, 1294757372, 1396182291,
   1695183700, 1986661051, 2177026350, 2456956037, 2730485921, 2820302411,
   3259730800, 3345764771, 3516065817, 3600352804, 4094571909, 275423344,
   430227734, 506948616, 659060556, 883997877, 958139571, 1322822218,
   1537002063, 1747873779, 1955562222, 2024104815, 2227730452, 2361852424,
   2428436474, 2756734187, 3204031479, 3329325298]

/-- Extend a 16-word block to the 64-word sha256 message schedule. -/
def sha256Sched (w : List Nat) : Nat → List Nat
  | 0 => w
  | k + 1 =>
    let n := w.length
    let s0i := w.getD (n - 15) 0
    let s1i := w.getD (n - 2) 0
    let s0 := rotr32 7 s0i ^^^ rotr32 18 s0i ^^^ (s0i >>> 3)
    let s1 := rotr32 17 s1i ^^^ rotr32 19 s1i ^^^ (s1i >>> 10)
    sha256Sched (w ++ [w32 (w.getD (n - 16) 0 + s0 + w.getD (n - 7) 0 + s1)]) k

/-- One sha256 compression round. -/
def sha256Round (p : H8) (kw : Nat × Nat) : H8 :=
  let s1 := rotr32 6 p.e ^^^ rotr32 11 p.e ^^^ rotr32 25 p.e
  let ch := (p.e &&& p.f) ^^^ ((p.e ^^^ 4294967295) &&& p.g)
  let t1 := w32 (p.h + s1 + ch + kw.1 + kw.2)
  let s0 := rotr32 2 p.a ^^^ rotr32 13 p.a ^^^ rotr32 22 p.a
  let mj := (p.a &&& p.b) ^^^ (p.a &&& p.c) ^^^ (p.b &&& p.c)
  let t2 := w32 (s0 + mj)
  ⟨w32 (t1 + t2), p.a, p.b, p.c, w32 (p.d + t1), p.e, p.f, p.g⟩

/-- sha256 of a byte list, as 32 bytes. -/
def sha256Bytes (msg : List Nat) : List Nat :=
  let init : H8 := ⟨1779033703, 3144134277, 1013904242, 2773480762,
                    1359893119, 2600822924, 528734635, 1541459225⟩
  let final := (blocks16 (bytesToWordsBE (mdPad msg))).foldl
    (fun st blk =>
      let w := sha256Sched blk 48
      let p := (sha256K.zip w).foldl sha256Round st
      ⟨w32 (st.a + p.a), w32 (st.b + p.b), w32 (st.c + p.c), w32 (st.d + p.d),
       w32 (st.e + p.e), w32 (st.f + p.f), w32 (st.g + p.g), w32 (st.h + p.h)⟩)
    init
  natToBytesBE 4 final.a ++ natToBytesBE 4 final.b ++ natToBytesBE 4 final.c ++
  natToBytesBE 4 final.d ++ natToBytesBE 4 final.e ++ natToBytesBE 4 final.f ++
  natToBytesBE 4 final.g ++ natToBytesBE 4 final.h

/-- The five-word working state of sha1. -/
structure H5 where
  a : Nat
  b : Nat
  c : Nat
  d : Nat
  e : Nat

/-- Extend a 16-word block to the 80-word sha1 message schedule. -/
def sha1Sched (w : List Nat) : Nat → List Nat
  | 0 => w
  | k + 1 =>
    let n := w.length
    let x := w.getD (n - 3) 0 ^^^ w.getD (n - 8) 0 ^^^ w.getD (n - 14) 0 ^^^ w.getD (n - 16) 0
    sha1Sched (w ++ [rotl32 1 x]) k

/-- One sha1 compression round; the pair carries (round index, word). -/
def sha1Round (p : H5) (iw : Nat × Nat) : H5 :=
  let i := iw.1
  let f :=
    if i < 20 then (p.b &&& p.c) ||| ((p.b ^^^ 4294967295) &&& p.d)
    else if i < 40 then p.b ^^^ p.c ^^^ p.d
    else if i < 60 then (p.b &&& p.c) ||| (p.b &&& p.d) ||| (p.c &&& p.d)
    else p.b ^^^ p.c ^^^ p.d
  let k :=
    if i < 20 then 1518500249
    else if i < 40 then 1859775393
    else if i < 60 then 2400959708
    else 3395469782
  let t := w32 (rotl32 5 p.a + f + p.e + k + iw.2)
  ⟨t, p.a, rotl32 30 p.b, p.c, p.d⟩

/-- sha1 of a byte list, as 20 bytes. -/
def sha1Bytes (msg : List Nat) : List Nat :=
  let init : H5 := ⟨1732584193, 4023233417, 2562383102, 271733878, 3285377520⟩
  let final := (blocks16 (bytesToWordsBE (mdPad msg))).foldl
    (fun st blk =>
      let w := sha1Sched blk 64
      let p := ((List.range 80).zip w).foldl sha1Round st
      ⟨w32 (st.a + p.a), w32 (st.b + p.b), w32 (st.c + p.c), w32 (st.d + p.d),
       w32 (st.e + p.e)⟩)
    init
  natToBytesBE 4 final.a ++ natToBytesBE 4 final.b ++ natToBytesBE 4 final.c ++
  natToBytesBE 4 final.d ++ natToBytesBE 4 final.e

/-- Lowercase hex digit. -/
def hexDigitCh (n : Nat) : Char := Char.ofNat (if n < 10 then 48 + n else 87 + n)

/-- Lowercase hex rendering of a byte list. -/
def hexOfBytes (bs : List Nat) : Str :=
  (bs.map (fun b => [hexDigitCh (b / 16), hexDigitCh (b % 16)])).flatten

/-- UTF-8 encoding of one code point. -/
def utf8Char (n : Nat) : List Nat :=
  if n < 128 then [n]
  else if n < 2048 then [192 + n / 64, 128 + n % 64]
  else if n < 65536 then [224 + n / 4096, 128 + (n / 64) % 64, 128 + n % 64]
  else [240 + n / 262144, 128 + (n / 4096) % 64, 128 + (n / 64) % 64, 128 + n % 64]

/-- UTF-8 encoding of a string (Python `str.encode`). -/
def utf8 (s : Str) : List Nat := (s.map (fun c => utf8Char c.toNat)).flatten

/-- `sha256(text.encode()).hexdigest()` from the sources' `sha256` helper. -/
def sha256Hex (s : Str) : Str := hexOfBytes (sha256Bytes (utf8 s))

/-- The bytes of `uuid.NAMESPACE_DNS` (6ba7b810-9dad-11d1-80b4-00c04fd430c8). -/
def nsDNS : List Nat :=
  [0x6b, 0xa7, 0xb8, 0x10, 0x9d, 0xad, 0x11, 0xd1,
   0x80, 0xb4, 0x00, 0xc0, 0x4f, 0xd4, 0x30, 0xc8]

/-- UUID version 5 raw bytes: sha1 of namespace plus name, truncated to 16
bytes, with the version and variant bits forced. -/
def uuid5Bytes (ns : List Nat) (name : List Nat) : List Nat :=
  let d := (sha1Bytes (ns ++ name)).take 16
  (List.range 16).map (fun i =>
    let b := d.getD i 0
    if i = 6 then (b % 16) + 80
    else if i = 8 then (b % 64) + 128
    else b)

/-- Canonical 8-4-4-4-12 string form of a 16-byte UUID (Python `str(uuid)`). -/
def uuidFormat (bs : List Nat) : Str :=
  let dash : Str := [Char.ofNat 45]
  hexOfBytes (bs.take 4) ++ dash ++ hexOfBytes ((bs.drop 4).take 2) ++ dash ++
  hexOfBytes ((bs.drop 6).take 2) ++ dash ++ hexOfBytes ((bs.drop 8).take 2) ++ dash ++
  hexOfBytes (bs.drop 10)

/-- `str(uuid.uuid5(uuid.NAMESPACE_DNS, name))`. -/
def uuid5DNS (name : Str) : Str := uuidFormat (uuid5Bytes nsDNS (utf8 name))

/-- Validation of the sha256 model against the FIPS 180 test vector. -/
lemma sha256Hex_abc :
    sha256Hex ("abc").data
      = ("ba7816bf8f01cfea414140de5dae2223b00361a396177a9cb410ff61f20015ad").data := by
  decide

/-- Validation of the uuid5 model against the reference value of
`uuid.uuid5(uuid.NAMESPACE_DNS, "python.org")`. -/
lemma uuid5DNS_python_org :
    uuid5DNS ("python.org").data
      = ("886313e1-3b8a-5372-9b90-0c9aee199e5d").data := by
  decide

-- ----------------------- chunking: helpers -----------------------

/-- First index `i ≥ start` (absolute) with `s[i] = c`; the recursion walks
the suffix while carrying the absolute position. -/
def findCharGo (c : Char) : List Char → Nat → Option Nat
  | [], _ => none
  | x :: xs, i => if x = c then some i else findCharGo c xs (i + 1)

/-- Python `str.find(c, start)` for a single character, as an option. -/
def findCharFrom (s : Str) (c : Char) (start : Nat) : Option Nat :=
  findCharGo c (s.drop start) start

/-- Forward scan carrying the absolute position and the last match. -/
def rfindGo (c : Char) : List Char → Nat → Option Nat → Option Nat
  | [], _, best => best
  | x :: xs, i, best => rfindGo c xs (i + 1) (if x = c then some i else best)

/-- Python `str.rfind(c, a, b)` for a single character: the largest index
`i` with `a ≤ i < b` and `s[i] = c`. -/
def rfindCharIn (s : Str) (c : Char) (a b : Nat) : Option Nat :=
  rfindGo c (pySlice s a b) a none

/-- Loop body of `_line_to_byte`: advance past one newline per step. -/
def lineToByteGo (src : Str) : Nat → Nat → Nat
  | 0, idx => idx
  | k + 1, idx =>
    if idx < src.length then
      match findCharFrom src chNL idx with
      | none => src.length
      | some nl => lineToByteGo src k (nl + 1)
    else idx

/-- `_line_to_byte` from the sources: byte offset of the start of the
1-based line `lineNo`. -/
def lineToByte (src : Str) (lineNo : Nat) : Nat :=
  if lineNo ≤ 1 then 0 else lineToByteGo src (lineNo - 1) 0

/-- `_byte_to_line` from the sources: 1-based line number containing the
byte offset. -/
def byteToLine (src : Str) (off : Nat) : Nat := (src.take off).count chNL + 1

/-- The line-boundary characters of Python `str.splitlines`. -/
def isLineBoundary (c : Char) : Bool :=
  decide (c.toNat = 10) || decide (c.toNat = 13) || decide (c.toNat = 11) ||
  decide (c.toNat = 12) || decide (c.toNat = 28) || decide (c.toNat = 29) ||
  decide (c.toNat = 30) || decide (c.toNat = 133) || decide (c.toNat = 8232) ||
  decide (c.toNat = 8233)

/-- Continuation of `breakLine` after a leading carriage return: a
following newline is consumed as part of the same `\r\n` terminator. -/
def breakLineCR : Str → Str × Str
  | d :: cs' => if d = chNL then ([chCR, d], cs') else ([chCR], d :: cs')
  | [] => ([chCR], [])

/-- Split off the first line (keeping its terminator, `\r\n` as a unit). -/
def breakLine : Str → Str × Str
  | [] => ([], [])
  | c :: cs =>
    if isLineBoundary c then
      if c = chCR then breakLineCR cs
      else ([c], cs)
    else
      let p := breakLine cs
      (c :: p.1, p.2)

/-- Fuel-based loop of `splitlines(True)`. -/
def splitKEGo : Nat → Str → List Str
  | 0, _ => []
  | fuel + 1, s =>
    match s with
    | [] => []
    | _ :: _ =>
      let p := breakLine s
      p.1 :: splitKEGo fuel p.2

/-- Python `src.splitlines(True)` (keepends). -/
def splitKE (s : Str) : List Str := splitKEGo s.length s

-- ----------------------- chunking: data and caps -----------------------

/-- `Chunk` from `git_aware_code_indexer.py` (the free-form `meta` map,
which only stack plugins populate, is omitted from the model). -/
structure Chunk where
  logical_id : Str
  symbol : Str
  path : Str
  language : Str
  range : Range
  content : Str
  content_hash : Str
  sig_hash : Str
  neighbors : List Str := []
  block_id : Option Str := none
  block_range : Option Range := none
deriving DecidableEq

/-- `MAX_CONTENT_CHARS = max(256, int(CHUNK_TOKENS * CHUNK_TOKEN_FRACTION
* CHARS_PER_TOKEN_EST))`.  The two float configuration factors are
modelled as exact non-negative fractions `fracNum/fracDen` and
`estNum/estDen`, and Python `int()` (truncation, which on non-negative
values is the floor) becomes natural division; a negative configuration
value would truncate to at most 0 and hit the same 256 floor. -/
def maxContentChars (chunkTokens fracNum fracDen estNum estDen : Nat) : Nat :=
  max 256 (chunkTokens * fracNum * estNum / (fracDen * estDen))

/-- The default configuration: CHUNK_TOKENS=512, CHUNK_TOKEN_FRACTION=0.6,
CHARS_PER_TOKEN_EST=1.5. -/
def maxContentCharsDefault : Nat := maxContentChars 512 3 5 3 2

/-- The identical guard `max(256, max_content_chars or MAX_CONTENT_CHARS)`
at the top of `Chunker.ts_chunks` and `Chunker.generic_chunks` (a zero
argument is falsy in Python and falls back to the module default). -/
def effectiveCap (arg : Nat) : Nat :=
  max 256 (if arg = 0 then maxContentCharsDefault else arg)

/-- The module default `CHUNK_LINES` (generic window height). -/
def chunkLinesDefault : Nat := 120

lemma maxContentCharsDefault_eq : maxContentCharsDefault = 460 := by decide

-- ----------------------- chunking: split_into_chunks -----------------------

/-- Decimal digits of a natural number. -/
def natStr (n : Nat) : Str := Nat.toDigits 10 n

/-- The `_partN` suffix attached to split chunk symbols and logical ids. -/
def partSuffix (n : Nat) : Str := ("_part").data ++ natStr n

/-- The cut-point computation at the top of each `split_into_chunks`
iteration: cap-sized end, pulled back to just after the last newline
strictly beyond the current position when one exists. -/
def splitCutEnd (text : Str) (pos maxC : Nat) : Nat :=
  let se0 := min (pos + maxC) text.length
  match rfindCharIn text chNL pos se0 with
  | some i => if pos < i then i + 1 else se0
  | none => se0

/-- Loop of the (identical) inner helper `split_into_chunks` of
`Chunker.ts_chunks` and `Chunker.generic_chunks`: cut `text` at
`maxC`-sized boundaries, preferring the last newline strictly after the
current position; fuel is the remaining text length (the position strictly
increases each iteration whenever `maxC ≥ 1`; with `maxC = 0` the Python
loop would not terminate, which the fuel guard renders as `[]`). -/
def splitGo (path lang text : Str) (startLine byteStart : Nat)
    (symbol lidBase sigHash : Str) (blockId : Option Str)
    (blockRange : Option Range) (maxC : Nat) :
    Nat → Nat → Nat → List Chunk
  | 0, _, _ => []
  | fuel + 1, pos, partNum =>
    if pos < text.length then
      let se := splitCutEnd text pos maxC
      if se ≤ pos then []
      else
        let subText := pySlice text pos se
        let c : Chunk :=
          { logical_id := lidBase ++ partSuffix partNum
            symbol := symbol ++ partSuffix partNum
            path := path
            language := lang
            range := ⟨(startLine + (text.take pos).count chNL : Nat),
                      (startLine + (text.take se).count chNL : Nat),
                      byteStart + pos, byteStart + se, false⟩
            content := subText
            content_hash := sha256Hex subText
            sig_hash := sigHash
            neighbors := []
            block_id := blockId
            block_range := blockRange }
        c :: splitGo path lang text startLine byteStart symbol lidBase sigHash
          blockId blockRange maxC fuel se (partNum + 1)
    else []

/-- `split_into_chunks(text, start_line, end_line, byte_start, byte_end,
symbol, logical_id_base, sig_hash, block_id, block_range)` (the
`end_line` / `byte_end` arguments are unused by the Python body and are
omitted; `path` and the language tag are free variables of the enclosing
chunker in the source). -/
def split_into_chunks (path lang text : Str) (startLine byteStart : Nat)
    (symbol lidBase sigHash : Str) (blockId : Option Str)
    (blockRange : Option Range) (maxC : Nat) : List Chunk :=
  splitGo path lang text startLine byteStart symbol lidBase sigHash
    blockId blockRange maxC text.length 0 1

-- ----------------------- chunking: generic_chunks -----------------------

/-- Python `f"{n:04d}"`. -/
def pad4 (n : Nat) : Str :=
  let d := natStr n
  List.replicate (4 - d.length) (Char.ofNat 48) ++ d

/-- The window loop of `Chunker.generic_chunks`; fuel is the number of
remaining lines (each iteration consumes `lpc ≥ 1` of them). -/
def genGo (path repo joined : Str) (lpc maxC : Nat) :
    Nat → List Str → Nat → List Chunk
  | 0, _, _ => []
  | _, [], _ => []
  | fuel + 1, ls@(_ :: _), lineNo =>
    let segment := ls.take lpc
    let text := segment.flatten
    let startL := lineNo
    let endL := lineNo + segment.length - 1
    let byteStart := lineToByte joined startL
    let byteEnd := lineToByte joined (endL + 1)
    let symbol := ("range:").data ++ pad4 startL ++ ("-").data ++ pad4 endL
    let lid := repo ++ (":").data ++ path ++ ("#").data ++ symbol
    let sig := sha256Hex symbol
    (if maxC < text.length then
      split_into_chunks path ("generic").data text startL byteStart symbol lid sig
        none none maxC
    else
      [{ logical_id := lid
         symbol := symbol
         path := path
         language := ("generic").data
         range := ⟨(startL : Int), (endL : Int), byteStart, byteEnd, false⟩
         content := text
         content_hash := sha256Hex text
         sig_hash := sig
         neighbors := []
         block_id := none
         block_range := none }]) ++
    genGo path repo joined lpc maxC fuel (ls.drop lpc) (lineNo + segment.length)

/-- `Chunker.generic_chunks(src, path, repo, lines_per_chunk,
max_content_chars)`.  A zero `linesPerChunk` would make the Python loop
spin forever; the model returns `[]` for it (the configured default
is 120). -/
def generic_chunks (src path repo : Str) (linesPerChunk capArg : Nat) : List Chunk :=
  if linesPerChunk = 0 then []
  else genGo path repo (splitKE src).flatten linesPerChunk (effectiveCap capArg)
    (splitKE src).length (splitKE src) 1

-- ----------------------- chunking: dispatcher -----------------------

/-- The basename of a path (the segment after the last slash). -/
def baseNameOf (s : Str) : Str :=
  (s.reverse.takeWhile (fun c => decide (c ≠ Char.ofNat 47))).reverse

/-- `os.path.splitext(path)[1]`: the extension starting at the last dot of
the basename, where leading dots of the basename never start an
extension. -/
def extOf (path : Str) : Str :=
  let base := baseNameOf path
  let lead := base.takeWhile (fun c => decide (c = Char.ofNat 46))
  let rest := base.drop lead.length
  match rfindCharIn rest (Char.ofNat 46) 0 rest.length with
  | none => []
  | some k => rest.drop k

/-- `_SKIP_EXTENSIONS` (binary spreadsheet formats). -/
def skipExtensions : List Str :=
  [(".xlsx").data, (".xls").data, (".xlsm").data, (".xlsb").data]

/-- The `ext in _SKIP_EXTENSIONS` test of `Chunker.chunks`. -/
def chunkerSkips (path : Str) : Bool :=
  skipExtensions.any (fun e => decide ((extOf path).map Char.toLower = e))

/-- `Chunker.chunks(src, path, repo)` with no stack plugins registered.
Tree-sitter is an optional external parser (`_TS_AVAILABLE`); the model
covers the always-available generic line-window path that the sources fall
back to, with the module-default window and cap. -/
def chunkerChunks (src path repo : Str) : List Chunk :=
  if chunkerSkips path then []
  else generic_chunks src path repo chunkLinesDefault maxContentCharsDefault

-- ----------------------- chunking: lemmas -----------------------

lemma rfindGo_spec (c : Char) (P : Nat → Prop) :
    ∀ (l : List Char) (i : Nat) (best : Option Nat),
      (∀ v, best = some v → P v) → (∀ k, i ≤ k → k < i + l.length → P k) →
      ∀ r, rfindGo c l i best = some r → P r := by
  intro l
  induction l with
  | nil =>
    intro i best hbest _ r hr
    exact hbest r hr
  | cons x xs ih =>
    intro i best hbest hrange r hr
    refine ih (i + 1) _ ?_ ?_ r hr
    · intro v hv
      by_cases hx : x = c
      · rw [if_pos hx] at hv
        cases hv
        exact hrange i le_rfl (by simp)
      · rw [if_neg hx] at hv
        exact hbest v hv
    · intro k hk1 hk2
      exact hrange k (by omega) (by simpa [Nat.add_assoc, Nat.add_comm 1] using hk2)

lemma rfindCharIn_some_bounds {s : Str} {c : Char} {a b i : Nat}
    (h : rfindCharIn s c a b = some i) : a ≤ i ∧ i < b := by
  refine rfindGo_spec c (fun k => a ≤ k ∧ k < b) (pySlice s a b) a none
    (by intro v hv; cases hv) ?_ i h
  intro k hk1 hk2
  have hlen : (pySlice s a b).length ≤ b - a := by
    unfold pySlice
    simp only [List.length_take, List.length_drop]
    omega
  omega

lemma pySlice_length {s : Str} {a b : Nat} (hb : b ≤ s.length) (hab : a ≤ b) :
    (pySlice s a b).length = b - a := by
  unfold pySlice
  simp only [List.length_take, List.length_drop]
  omega

lemma pySlice_append_drop {s : Str} {a b : Nat} (hab : a ≤ b) :
    pySlice s a b ++ s.drop b = s.drop a := by
  unfold pySlice
  have h1 : s.drop b = (s.drop a).drop (b - a) := by
    rw [List.drop_drop]
    congr 1
    omega
  rw [h1]
  exact List.take_append_drop (b - a) (s.drop a)

lemma splitCutEnd_bounds {text : Str} {pos maxC : Nat} (hcap : 1 ≤ maxC)
    (hp : pos < text.length) :
    pos < splitCutEnd text pos maxC ∧ splitCutEnd text pos maxC ≤ text.length ∧
    splitCutEnd text pos maxC ≤ pos + maxC := by
  unfold splitCutEnd
  cases hr : rfindCharIn text chNL pos (min (pos + maxC) text.length) with
  | none =>
    simp only [hr]
    omega
  | some i =>
    have hb := rfindCharIn_some_bounds hr
    simp only [hr]
    by_cases hpi : pos < i
    · rw [if_pos hpi]
      omega
    · rw [if_neg hpi]
      omega

lemma splitGo_spec (path lang text : Str) (startLine byteStart : Nat)
    (symbol lidBase sigHash : Str) (blockId : Option Str) (blockRange : Option Range)
    (maxC : Nat) (hcap : 1 ≤ maxC) :
    ∀ (fuel pos partNum : Nat), text.length ≤ fuel + pos →
      (((splitGo path lang text startLine byteStart symbol lidBase sigHash blockId
          blockRange maxC fuel pos partNum).map Chunk.content).flatten = text.drop pos) ∧
      (∀ c, c ∈ splitGo path lang text startLine byteStart symbol lidBase sigHash blockId
          blockRange maxC fuel pos partNum →
        c.content.length ≤ maxC ∧ c.content ≠ [] ∧ c.sig_hash = sigHash ∧
        c.content_hash = sha256Hex c.content) ∧
      (∀ i (hi : i < (splitGo path lang text startLine byteStart symbol lidBase sigHash
          blockId blockRange maxC fuel pos partNum).length),
        ((splitGo path lang text startLine byteStart symbol lidBase sigHash blockId
          blockRange maxC fuel pos partNum).get ⟨i, hi⟩).symbol
            = symbol ++ partSuffix (partNum + i) ∧
        ((splitGo path lang text startLine byteStart symbol lidBase sigHash blockId
          blockRange maxC fuel pos partNum).get ⟨i, hi⟩).logical_id
            = lidBase ++ partSuffix (partNum + i)) := by
  intro fuel
  induction fuel with
  | zero =>
    intro pos partNum hf
    rw [splitGo]
    refine ⟨?_, ?_, ?_⟩
    · simp only [List.map_nil, List.flatten_nil]
      exact (List.drop_eq_nil_of_le (by omega)).symm
    · intro c hc
      simp at hc
    · intro i hi
      simp at hi
  | succ fuel ih =>
    intro pos partNum hf
    rw [splitGo]
    by_cases hp : pos < text.length
    · rw [if_pos hp]
      obtain ⟨hsea, hseb, hsec⟩ := splitCutEnd_bounds hcap hp
      have hnotle : ¬ (splitCutEnd text pos maxC ≤ pos) := by omega
      rw [if_neg hnotle]
      obtain ⟨ihj, ihm, ihx⟩ := ih (splitCutEnd text pos maxC) (partNum + 1) (by omega)
      have hslicelen : (pySlice text pos (splitCutEnd text pos maxC)).length
          = splitCutEnd text pos maxC - pos :=
        pySlice_length (by omega) (by omega)
      refine ⟨?_, ?_, ?_⟩
      · simp only [List.map_cons, List.flatten_cons]
        rw [ihj]
        exact pySlice_append_drop (by omega)
      · intro c hc
        rcases List.mem_cons.mp hc with hc0 | hcr
        · subst hc0
          refine ⟨?_, ?_, rfl, rfl⟩
          · dsimp only
            rw [hslicelen]
            omega
          · dsimp only
            intro hnil
            rw [hnil] at hslicelen
            simp only [List.length_nil] at hslicelen
            omega
        · exact ihm c hcr
      · intro i hi
        cases i with
        | zero =>
          have hps : partSuffix (partNum + 0) = partSuffix partNum := by
            rw [Nat.add_zero]
          rw [hps]
          exact ⟨rfl, rfl⟩
        | succ j =>
          have hj : j < (splitGo path lang text startLine byteStart symbol lidBase sigHash
              blockId blockRange maxC fuel (splitCutEnd text pos maxC) (partNum + 1)).length := by
            simpa using hi
          have hjj := ihx j hj
          have harith : partNum + 1 + j = partNum + (j + 1) := by omega
          rw [harith] at hjj
          simpa using hjj
    · rw [if_neg hp]
      refine ⟨?_, ?_, ?_⟩
      · simp only [List.map_nil, List.flatten_nil]
        exact (List.drop_eq_nil_of_le (by omega)).symm
      · intro c hc
        simp at hc
      · intro i hi
        simp at hi

lemma breakLineCR_append {cs : Str} (hcs : (breakLineCR cs).1.head? = some chCR) :
    (breakLineCR cs).1 ++ (breakLineCR cs).2 = chCR :: cs := by
  cases cs with
  | nil => rfl
  | cons d cs' =>
    rw [breakLineCR]
    by_cases hd : d = chNL
    · rw [if_pos hd]
      subst hd
      rfl
    · rw [if_neg hd]
      rfl

lemma breakLineCR_head (cs : Str) : (breakLineCR cs).1.head? = some chCR := by
  cases cs with
  | nil => rfl
  | cons d cs' =>
    rw [breakLineCR]
    by_cases hd : d = chNL
    · rw [if_pos hd]
      rfl
    · rw [if_neg hd]
      rfl

lemma breakLine_append : ∀ s : Str, (breakLine s).1 ++ (breakLine s).2 = s := by
  intro s
  induction s with
  | nil => rfl
  | cons c cs ih =>
    rw [breakLine]
    by_cases hb : isLineBoundary c = true
    · rw [if_pos hb]
      by_cases hcr : c = chCR
      · rw [if_pos hcr]
        subst hcr
        exact breakLineCR_append (breakLineCR_head cs)
      · rw [if_neg hcr]
        rfl
    · rw [if_neg hb]
      dsimp only
      rw [List.cons_append, ih]

lemma breakLineCR_fst_ne (cs : Str) : (breakLineCR cs).1 ≠ [] := by
  cases cs with
  | nil => simp [breakLineCR]
  | cons d cs' =>
    rw [breakLineCR]
    by_cases hd : d = chNL
    · rw [if_pos hd]; simp
    · rw [if_neg hd]; simp

lemma breakLine_fst_ne {s : Str} (hs : s ≠ []) : (breakLine s).1 ≠ [] := by
  cases s with
  | nil => exact absurd rfl hs
  | cons c cs =>
    rw [breakLine]
    by_cases hb : isLineBoundary c = true
    · rw [if_pos hb]
      by_cases hcr : c = chCR
      · rw [if_pos hcr]
        exact breakLineCR_fst_ne cs
      · rw [if_neg hcr]; simp
    · rw [if_neg hb]; simp

lemma breakLine_snd_lt {s : Str} (hs : s ≠ []) : (breakLine s).2.length < s.length := by
  have h1 := breakLine_append s
  have h2 := breakLine_fst_ne hs
  have h3 : (breakLine s).1.length + (breakLine s).2.length = s.length := by
    conv_rhs => rw [← h1]
    rw [List.length_append]
  have h4 : 0 < (breakLine s).1.length := List.length_pos.mpr h2
  omega

lemma splitKEGo_mem_ne : ∀ (fuel : Nat) (s l : Str), l ∈ splitKEGo fuel s → l ≠ [] := by
  intro fuel
  induction fuel with
  | zero => intro s l hl; cases hl
  | succ fuel ih =>
    intro s l hl
    cases s with
    | nil => cases hl
    | cons c cs =>
      rw [splitKEGo] at hl
      rcases List.mem_cons.mp hl with h0 | hr
      · subst h0
        exact breakLine_fst_ne (by simp)
      · exact ih _ l hr

lemma splitKEGo_flatten : ∀ (fuel : Nat) (s : Str), s.length ≤ fuel →
    (splitKEGo fuel s).flatten = s := by
  intro fuel
  induction fuel with
  | zero =>
    intro s hf
    have : s = [] := List.length_eq_zero.mp (by omega)
    subst this
    rfl
  | succ fuel ih =>
    intro s hf
    cases s with
    | nil => rfl
    | cons c cs =>
      rw [splitKEGo, List.flatten_cons]
      have hne : (c :: cs : Str) ≠ [] := by simp
      have hlt := breakLine_snd_lt hne
      have hlen : (c :: cs : Str).length ≤ fuel + 1 := hf
      rw [ih (breakLine (c :: cs)).2 (by omega)]
      exact breakLine_append (c :: cs)

lemma splitKE_mem_ne {s l : Str} (hl : l ∈ splitKE s) : l ≠ [] :=
  splitKEGo_mem_ne s.length s l hl

lemma splitKE_flatten (s : Str) : (splitKE s).flatten = s :=
  splitKEGo_flatten s.length s le_rfl

lemma take_flatten_ne {x : Str} {xs : List Str} {lpc : Nat} (hx : x ≠ []) (hl : 1 ≤ lpc) :
    (((x :: xs).take lpc).flatten : Str) ≠ [] := by
  cases lpc with
  | zero => omega
  | succ k =>
    rw [List.take_succ_cons, List.flatten_cons]
    intro hcon
    exact hx (List.append_eq_nil.mp hcon).1

lemma genGo_mem (path repo joined : Str) (lpc maxC : Nat) (hl : 1 ≤ lpc) (hcap : 1 ≤ maxC) :
    ∀ (fuel : Nat) (ls : List Str) (lineNo : Nat) (c : Chunk),
      (∀ l ∈ ls, l ≠ ([] : Str)) →
      c ∈ genGo path repo joined lpc maxC fuel ls lineNo →
      c.content.length ≤ maxC ∧ c.content ≠ [] := by
  intro fuel
  induction fuel with
  | zero => intro ls lineNo c _ hc; simp [genGo] at hc
  | succ fuel ih =>
    intro ls lineNo c hne hc
    cases ls with
    | nil => simp [genGo] at hc
    | cons x xs =>
      rw [genGo] at hc
      rcases List.mem_append.mp hc with hleft | hright
      · by_cases hbig : maxC < ((x :: xs).take lpc).flatten.length
        · rw [if_pos hbig] at hleft
          have := (splitGo_spec path ("generic").data ((x :: xs).take lpc).flatten _ _ _ _ _
            none none maxC hcap ((x :: xs).take lpc).flatten.length 0 1 (by omega)).2.1 c hleft
          exact ⟨this.1, this.2.1⟩
        · rw [if_neg hbig] at hleft
          have h0 := List.mem_singleton.mp hleft
          subst h0
          refine ⟨?_, ?_⟩
          · dsimp only
            omega
          · dsimp only
            exact take_flatten_ne (hne x (by simp)) hl
      · refine ih (List.drop lpc (x :: xs)) _ c ?_ hright
        intro l hld
        exact hne l (List.mem_of_mem_drop hld)

lemma generic_chunks_content {src path repo : Str} {lpc capArg : Nat} {c : Chunk}
    (hc : c ∈ generic_chunks src path repo lpc capArg) :
    c.content.length ≤ effectiveCap capArg ∧ c.content ≠ [] := by
  unfold generic_chunks at hc
  by_cases h0 : lpc = 0
  · rw [if_pos h0] at hc; cases hc
  · rw [if_neg h0] at hc
    refine genGo_mem path repo (splitKE src).flatten lpc (effectiveCap capArg)
      (by omega) ?_ (splitKE src).length (splitKE src) 1 c ?_ hc
    · have : 256 ≤ effectiveCap capArg := le_max_left _ _
      omega
    · intro l hl
      exact splitKE_mem_ne hl

/-- Placeholder chunk used as the default of `List.getD`. -/
def chunk0 : Chunk :=
  ⟨[], [], [], [], ⟨0, 0, 0, 0, false⟩, [], [], [], [], none, none⟩

/-- The 920-character single-line source of the C8 counterexample. -/
def c8src : Str := List.replicate 920 (Char.ofNat 97)

/-- The chunks the generic chunker (window 120, default cap) produces for
that source. -/
def c8parts : List Chunk :=
  generic_chunks c8src ("p.txt").data ("r").data 120 maxContentCharsDefault

/-- Claim C8 (counterexample): a 920-character newline-free line exceeds
the default 460-character cap and is split into exactly two 460-character
parts `_part1` and `_part2`; the two parts carry the SAME content (and
hence the same `content_hash`), so the split parts' content hashes are NOT
pairwise distinct. -/
theorem claim_C8_counterexample :
    effectiveCap maxContentCharsDefault < c8src.length ∧
    c8parts.length = 2 ∧
    (c8parts.getD 0 chunk0).logical_id = ("r:p.txt#range:0001-0001_part1").data ∧
    (c8parts.getD 1 chunk0).logical_id = ("r:p.txt#range:0001-0001_part2").data ∧
    (c8parts.getD 0 chunk0).logical_id ≠ (c8parts.getD 1 chunk0).logical_id ∧
    (c8parts.getD 0 chunk0).content = (c8parts.getD 1 chunk0).content ∧
    (c8parts.getD 0 chunk0).content_hash = (c8parts.getD 1 chunk0).content_hash := by
  refine ⟨by decide, by decide, by decide, by decide, by decide, by decide, by decide⟩

/-- Claim C8 (amended): a chunk whose content exceeds the cap is split by
`split_into_chunks` (the helper shared verbatim by the syntax-aware and
the generic chunker) into ordered parts whose symbols and logical ids
carry the suffixes `_part1`, `_part2`, …; each part's content is within
the cap and non-empty, all parts share the original chunk's `sig_hash`,
each part's `content_hash` is the sha256 of its OWN content (so two parts
with equal content share a hash — hashes are not pairwise distinct in
general), and the parts concatenate back to the original text.  Moreover
every chunk emitted by the generic chunker respects the effective cap. -/
theorem claim_C8_amended :
    (∀ (path lang text : Str) (startLine byteStart : Nat)
      (symbol lidBase sigHash : Str) (blockId : Option Str)
      (blockRange : Option Range) (maxC : Nat), 1 ≤ maxC →
      (((split_into_chunks path lang text startLine byteStart symbol lidBase sigHash
          blockId blockRange maxC).map Chunk.content).flatten = text) ∧
      (∀ c, c ∈ split_into_chunks path lang text startLine byteStart symbol lidBase
          sigHash blockId blockRange maxC →
        c.content.length ≤ maxC ∧ c.content ≠ [] ∧ c.sig_hash = sigHash ∧
        c.content_hash = sha256Hex c.content) ∧
      (∀ i (hi : i < (split_into_chunks path lang text startLine byteStart symbol
          lidBase sigHash blockId blockRange maxC).length),
        ((split_into_chunks path lang text startLine byteStart symbol lidBase sigHash
          blockId blockRange maxC).get ⟨i, hi⟩).symbol = symbol ++ partSuffix (i + 1) ∧
        ((split_into_chunks path lang text startLine byteStart symbol lidBase sigHash
          blockId blockRange maxC).get ⟨i, hi⟩).logical_id
            = lidBase ++ partSuffix (i + 1))) ∧
    (∀ (src path repo : Str) (lpc capArg : Nat) (c : Chunk),
      c ∈ generic_chunks src path repo lpc capArg →
      c.content.length ≤ effectiveCap capArg) := by
  constructor
  · intro path lang text startLine byteStart symbol lidBase sigHash blockId blockRange
      maxC hcap
    obtain ⟨hj, hm, hx⟩ := splitGo_spec path lang text startLine byteStart symbol
      lidBase sigHash blockId blockRange maxC hcap text.length 0 1 (by omega)
    refine ⟨?_, hm, ?_⟩
    · unfold split_into_chunks
      rw [hj, List.drop_zero]
    · intro i hi
      have := hx i hi
      have harith : 1 + i = i + 1 := by omega
      rw [harith] at this
      exact this
  · intro src path repo lpc capArg c hc
    exact (generic_chunks_content hc).1

/-- Witness for C8 (amended) at a concrete split: a two-line text splits
with its parts concatenating back to the text. -/
theorem claim_C8_amended_witness :
    ((split_into_chunks ("p.py").data ("generic").data ("abc\ndef\n").data 1 0
        ("range:0001-0002").data ("r:p.py#range:0001-0002").data ("sig").data
        none none 256).map Chunk.content).flatten = ("abc\ndef\n").data :=
  (claim_C8_amended.1 ("p.py").data ("generic").data ("abc\ndef\n").data 1 0
    ("range:0001-0002").data ("r:p.py#range:0001-0002").data ("sig").data
    none none 256 (by decide)).1

/-- Claim C9: the per-chunk character cap is floored to 256 — both in the
module-level `MAX_CONTENT_CHARS` formula and in the per-call guard shared
by the two chunkers — and every chunk the generic chunker returns has
non-empty content. -/
theorem claim_C9_cap_floor_nonempty :
    (∀ chunkTokens fracNum fracDen estNum estDen : Nat,
      256 ≤ maxContentChars chunkTokens fracNum fracDen estNum estDen) ∧
    (∀ capArg : Nat, 256 ≤ effectiveCap capArg) ∧
    (∀ (src path repo : Str) (lpc capArg : Nat) (c : Chunk),
      c ∈ generic_chunks src path repo lpc capArg → c.content ≠ []) := by
  refine ⟨?_, ?_, ?_⟩
  · intro t fn fd en ed
    exact le_max_left _ _
  · intro capArg
    exact le_max_left _ _
  · intro src path repo lpc capArg c hc
    exact (generic_chunks_content hc).2

/-- Witness for C9 at a concrete source file. -/
theorem claim_C9_witness :
    256 ≤ maxContentChars 512 3 5 3 2 ∧ 256 ≤ effectiveCap 7 ∧
    ((generic_chunks ("x\n").data ("m.txt").data ("r").data 120 0).getD 0
      chunk0).content ≠ [] :=
  ⟨claim_C9_cap_floor_nonempty.1 512 3 5 3 2,
   claim_C9_cap_floor_nonempty.2.1 7,
   claim_C9_cap_floor_nonempty.2.2 ("x\n").data ("m.txt").data ("r").data 120 0 _
     (by decide)⟩

-- ----------------------- diff parsing -----------------------

/-- `FileDiff` from `git_aware_code_indexer.py`. -/
structure FileDiff where
  path : Str
  hunks : List Hunk
  is_deleted : Bool := false
  old_path : Option Str := none
  new_path : Option Str := none
deriving DecidableEq

/-- The string `"/dev/null"`. -/
def devNull : Str := ("/dev/null").data

/-- Python's `x or y` on an optional string: `None` and the empty string
are falsy. -/
def pyOrStr (a b : Option Str) : Option Str :=
  match a with
  | some p => if p = [] then b else some p
  | none => b

/-- Python `str.isspace` members relevant to `str.strip()` (the ASCII
whitespace characters; the paths in unified diffs contain no exotic
Unicode whitespace). -/
def isPySpace (c : Char) : Bool :=
  decide (c.toNat = 32) || decide (c.toNat = 9) || decide (c.toNat = 10) ||
  decide (c.toNat = 11) || decide (c.toNat = 12) || decide (c.toNat = 13)

/-- Python `str.strip()`. -/
def pyStrip (s : Str) : Str :=
  ((s.dropWhile isPySpace).reverse.dropWhile isPySpace).reverse

/-- Scanner of the non-greedy `a/(.+?) b/(.+)$` separator: starting after
at least one captured character, stop at the first position whose suffix
begins with `" b/"` and has at least one character after it. -/
def splitBGo (acc : Str) : Str → Option (Str × Str)
  | [] => none
  | c :: rest =>
    if isPre (" b/").data (c :: rest) ∧ 2 < rest.length then some (acc, rest.drop 2)
    else splitBGo (acc ++ [c]) rest

/-- The `^diff --git a/(?P<old>.+?) b/(?P<new>.+)$` header match. -/
def parseGitHeader (line : Str) : Option (Str × Str) :=
  if isPre ("diff --git a/").data line then
    match line.drop 13 with
    | [] => none
    | c :: rest => splitBGo [c] rest
  else none

/-- Positional value of a decimal digit string. -/
def digitsVal (d : Str) : Nat := d.foldl (fun a c => a * 10 + (c.toNat - 48)) 0

/-- The optional `,(\d+)` group of the hunk header pattern: consumed only
when a comma directly followed by at least one digit is present. -/
def parseOptLen (r : Str) : Option Nat × Str :=
  match r with
  | c :: rest =>
    if c = Char.ofNat 44 then
      let d := rest.takeWhile Char.isDigit
      if d = [] then (none, r) else (some (digitsVal d), rest.drop d.length)
    else (none, r)
  | [] => (none, r)

/-- The `@@ -(\d+)(?:,(\d+))? \+(\d+)(?:,(\d+))? @@.*` hunk header match
(missing lengths default to 1). -/
def parseHunkHeader (line : Str) : Option Hunk :=
  if isPre ("@@ -").data line then
    let r1 := line.drop 4
    let d1 := r1.takeWhile Char.isDigit
    if d1 = [] then none
    else
      let p2 := parseOptLen (r1.drop d1.length)
      if isPre (" +").data p2.2 then
        let r4 := p2.2.drop 2
        let d3 := r4.takeWhile Char.isDigit
        if d3 = [] then none
        else
          let p4 := parseOptLen (r4.drop d3.length)
          if isPre (" @@").data p4.2 then
            some ⟨(digitsVal d1 : Nat), ((p2.1.getD 1 : Nat) : Int),
                  (digitsVal d3 : Nat), ((p4.1.getD 1 : Nat) : Int)⟩
          else none
      else none
  else none

/-- Mutable state of the `parse_unified_diff` loop. -/
structure PState where
  acc : List FileDiff
  current : Option FileDiff
  parsed_old : Option Str
  parsed_new : Option Str
  deleted_flag : Bool

/-- Finalization applied to `current` at the next header and at the end:
deletion is forced when `new_path` is `/dev/null`, and a deletion's
canonical path is its (truthy) old path. -/
def finalizeFD (cur : FileDiff) (deletedFlag : Bool) : FileDiff :=
  let isdel := deletedFlag || decide (cur.new_path = some devNull)
  let cur' := { cur with is_deleted := isdel }
  match cur'.old_path with
  | some p => if isdel = true ∧ p ≠ [] then { cur' with path := p } else cur'
  | none => cur'

/-- The `diff --git` branch: finalize the previous file diff and reset
per-file state from the header's parsed paths. -/
def stepHeader (st : PState) (parsed : Option (Str × Str)) : PState :=
  let acc :=
    match st.current with
    | some cur => st.acc ++ [finalizeFD cur st.deleted_flag]
    | none => st.acc
  match parsed with
  | some (o, n) => ⟨acc, none, some o, some n, false⟩
  | none => ⟨acc, none, none, none, false⟩

/-- The `--- a/` branch. -/
def stepOldPath (st : PState) (lineRest : Str) : PState :=
  let old_path := pyStrip lineRest
  let po := match st.parsed_old with | none => some old_path | some p => some p
  match st.current, st.deleted_flag with
  | none, true =>
    let path_to_use := match pyOrStr po (some old_path) with
      | some p => p
      | none => old_path
    ⟨st.acc, some ⟨path_to_use, [], true, some path_to_use, some devNull⟩,
      po, st.parsed_new, st.deleted_flag⟩
  | _, _ => ⟨st.acc, st.current, po, st.parsed_new, st.deleted_flag⟩

/-- The `+++ b/` branch. -/
def stepNewPath (st : PState) (lineRest : Str) : PState :=
  let new_path := pyStrip lineRest
  let pn := match st.parsed_new with | none => some new_path | some p => some p
  match st.current with
  | none =>
    if new_path = devNull then
      let path := match pyOrStr st.parsed_old none with
        | some p => p
        | none => devNull
      ⟨st.acc, some ⟨path, [], true, st.parsed_old, some devNull⟩,
        st.parsed_old, pn, st.deleted_flag⟩
    else
      ⟨st.acc, some ⟨new_path, [], false, st.parsed_old, some new_path⟩,
        st.parsed_old, pn, st.deleted_flag⟩
  | some cur =>
    ⟨st.acc,
      some { cur with new_path := some new_path,
                      old_path := pyOrStr cur.old_path st.parsed_old },
      st.parsed_old, pn, st.deleted_flag⟩

/-- The `deleted file mode` branch. -/
def stepDeleted (st : PState) : PState :=
  match st.current with
  | none =>
    match pyOrStr st.parsed_old (pyOrStr st.parsed_new none) with
    | some p =>
      ⟨st.acc, some ⟨p, [], true, st.parsed_old, some devNull⟩,
        st.parsed_old, st.parsed_new, true⟩
    | none => ⟨st.acc, none, st.parsed_old, st.parsed_new, true⟩
  | some _ => ⟨st.acc, st.current, st.parsed_old, st.parsed_new, true⟩

/-- The `@@ ` branch (ignored when no current file diff or no regex
match). -/
def stepHunk (st : PState) (parsed : Option Hunk) : PState :=
  match st.current, parsed with
  | some cur, some hk =>
    ⟨st.acc, some { cur with hunks := cur.hunks ++ [hk] },
      st.parsed_old, st.parsed_new, st.deleted_flag⟩
  | _, _ => st

/-- One iteration of the `parse_unified_diff` line loop, dispatching on
the line prefix in the order of the source. -/
def parseStep (st : PState) (line : Str) : PState :=
  if isPre ("diff --git ").data line then stepHeader st (parseGitHeader line)
  else if isPre ("--- a/").data line then stepOldPath st (line.drop 6)
  else if isPre ("+++ b/").data line then stepNewPath st (line.drop 6)
  else if isPre ("deleted file mode").data line then stepDeleted st
  else if isPre ("@@ ").data line then stepHunk st (parseHunkHeader line)
  else st

/-- `DiffUtil.parse_unified_diff` on the already split-and-rstripped
physical lines: fold the loop, finalize the trailing file diff, and keep
only diffs with a truthy path and either hunks or a deletion marker. -/
def parseDiffLines (lines : List Str) : List FileDiff :=
  let st := lines.foldl parseStep ⟨[], none, none, none, false⟩
  let fds :=
    match st.current with
    | some cur => st.acc ++ [finalizeFD cur st.deleted_flag]
    | none => st.acc
  fds.filter (fun fd =>
    decide (fd.path ≠ []) && (decide (fd.hunks ≠ []) || fd.is_deleted))

/-- Split after each newline (the iteration of `io.StringIO`). -/
def breakNL : Str → Str × Str
  | [] => ([], [])
  | c :: cs =>
    if c = chNL then ([c], cs)
    else
      let p := breakNL cs
      (c :: p.1, p.2)

/-- Fuel-based loop producing the physical lines of a text. -/
def splitNLGo : Nat → Str → List Str
  | 0, _ => []
  | fuel + 1, s =>
    match s with
    | [] => []
    | _ :: _ =>
      let p := breakNL s
      p.1 :: splitNLGo fuel p.2

/-- Python `line.rstrip("\n")`. -/
def rstripNL (s : Str) : Str :=
  (s.reverse.dropWhile (fun c => decide (c = chNL))).reverse

/-- The lines the `parse_unified_diff` loop iterates over: physical lines
with their trailing newline stripped. -/
def diffLines (text : Str) : List Str := (splitNLGo text.length text).map rstripNL

namespace DiffUtil

/-- `DiffUtil.parse_unified_diff(text)`. -/
def parse_unified_diff (text : Str) : List FileDiff := parseDiffLines (diffLines text)

end DiffUtil

/-- Join lines into a newline-terminated text. -/
def joinNL (ls : List Str) : Str := (ls.map (fun l => l ++ [chNL])).flatten

lemma breakNL_line {l : Str} (hl : chNL ∉ l) :
    ∀ rest : Str, breakNL (l ++ chNL :: rest) = (l ++ [chNL], rest) := by
  induction l with
  | nil =>
    intro rest
    rw [List.nil_append, breakNL, if_pos rfl]
    rfl
  | cons c l' ih =>
    intro rest
    have hc : c ≠ chNL := fun hcc => hl (hcc ▸ List.mem_cons_self c l')
    have hl' : chNL ∉ l' := fun hm => hl (List.mem_cons_of_mem c hm)
    rw [List.cons_append, breakNL, if_neg hc]
    dsimp only
    rw [ih hl' rest]
    rfl

lemma splitNLGo_succ_ne {s : Str} (hs : s ≠ []) (f : Nat) :
    splitNLGo (f + 1) s = (breakNL s).1 :: splitNLGo f (breakNL s).2 := by
  cases s with
  | nil => exact absurd rfl hs
  | cons c cs => rfl

lemma splitNLGo_joinNL :
    ∀ (ls : List Str) (fuel : Nat), (∀ l ∈ ls, chNL ∉ l) →
      (joinNL ls).length ≤ fuel →
      splitNLGo fuel (joinNL ls) = ls.map (fun l => l ++ [chNL]) := by
  intro ls
  induction ls with
  | nil =>
    intro fuel _ _
    cases fuel with
    | zero => rfl
    | succ f => rfl
  | cons l ls' ih =>
    intro fuel hnl hf
    have hjoin : joinNL (l :: ls') = (l ++ [chNL]) ++ joinNL ls' := by
      unfold joinNL
      rw [List.map_cons, List.flatten_cons]
    have hlen : (joinNL (l :: ls')).length = l.length + 1 + (joinNL ls').length := by
      rw [hjoin]
      simp [List.length_append]
      omega
    cases fuel with
    | zero => omega
    | succ f =>
      have hne : ((l ++ [chNL]) ++ joinNL ls' : Str) ≠ [] := by simp
      rw [hjoin, splitNLGo_succ_ne hne]
      have hbreak : breakNL ((l ++ [chNL]) ++ joinNL ls') = (l ++ [chNL], joinNL ls') := by
        rw [List.append_assoc, List.singleton_append]
        exact breakNL_line (hnl l (List.mem_cons_self l ls')) (joinNL ls')
      rw [hbreak]
      dsimp only
      rw [ih f (fun a ha => hnl a (List.mem_cons_of_mem l ha)) (by omega)]
      rfl

lemma rstripNL_line {l : Str} (hl : chNL ∉ l) : rstripNL (l ++ [chNL]) = l := by
  unfold rstripNL
  rw [List.reverse_append]
  simp only [List.reverse_cons, List.reverse_nil, List.nil_append, List.singleton_append]
  rw [List.dropWhile_cons]
  rw [if_pos (by decide)]
  have : l.reverse.dropWhile (fun c => decide (c = chNL)) = l.reverse := by
    cases hrev : l.reverse with
    | nil => rfl
    | cons c cs =>
      rw [List.dropWhile_cons]
      have hc : c ≠ chNL := by
        intro hcc
        apply hl
        have : c ∈ l.reverse := by rw [hrev]; exact List.mem_cons_self c cs
        rw [List.mem_reverse] at this
        exact hcc ▸ this
      simp [hc]
  rw [this, List.reverse_reverse]

lemma diffLines_joinNL {ls : List Str} (h : ∀ l ∈ ls, chNL ∉ l) :
    diffLines (joinNL ls) = ls := by
  unfold diffLines
  rw [splitNLGo_joinNL ls (joinNL ls).length h le_rfl]
  rw [List.map_map]
  have : ∀ l ∈ ls, (rstripNL ∘ fun l => l ++ [chNL]) l = id l := by
    intro l hl
    exact rstripNL_line (h l hl)
  rw [List.map_congr_left this, List.map_id]

/-- Claim C7: a `diff --git` entry followed by a `deleted file mode`
marker and no hunk headers (the shape git emits for a pure deletion, with
`--- a/…` and `+++ /dev/null` lines and no `@@` lines) still yields a
FileDiff, with `is_deleted = true` and the canonical path taken from the
old ("a") side. -/
theorem claim_C7_pure_deletion (x y : Str)
    (hx : x ≠ [])
    (hnx : chNL ∉ x) (hny : chNL ∉ y)
    (hhdr : parseGitHeader (("diff --git a/").data ++ x ++ (" b/").data ++ y)
      = some (x, y)) :
    DiffUtil.parse_unified_diff (joinNL
      [("diff --git a/").data ++ x ++ (" b/").data ++ y,
       ("deleted file mode 100644").data,
       ("index 3c8bf12..0000000").data,
       ("--- a/").data ++ x,
       ("+++ /dev/null").data])
      = [⟨x, [], true, some x, some devNull⟩] := by
  have hall : ∀ l ∈ [("diff --git a/").data ++ x ++ (" b/").data ++ y,
       ("deleted file mode 100644").data,
       ("index 3c8bf12..0000000").data,
       ("--- a/").data ++ x,
       ("+++ /dev/null").data], chNL ∉ l := by
    intro l hl
    simp only [List.mem_cons, List.not_mem_nil, or_false] at hl
    rcases hl with h | h | h | h | h
    · subst h
      intro hm
      rcases List.mem_append.mp hm with hm1 | hm2
      · rcases List.mem_append.mp hm1 with hm3 | hm4
        · rcases List.mem_append.mp hm3 with hm5 | hm6
          · revert hm5; decide
          · exact hnx hm6
        · revert hm4; decide
      · exact hny hm2
    · subst h; decide
    · subst h; decide
    · subst h
      intro hm
      rcases List.mem_append.mp hm with hm1 | hm2
      · revert hm1; decide
      · exact hnx hm2
    · subst h; decide
  unfold DiffUtil.parse_unified_diff
  rw [diffLines_joinNL hall]
  have h1 : parseStep ⟨[], none, none, none, false⟩
      (("diff --git a/").data ++ x ++ (" b/").data ++ y)
      = ⟨[], none, some x, some y, false⟩ := by
    have e1 : parseStep ⟨[], none, none, none, false⟩
        (("diff --git a/").data ++ x ++ (" b/").data ++ y)
        = stepHeader ⟨[], none, none, none, false⟩
            (parseGitHeader (("diff --git a/").data ++ x ++ (" b/").data ++ y)) := rfl
    rw [e1, hhdr]
    rfl
  have h2 : parseStep ⟨[], none, some x, some y, false⟩
      (("deleted file mode 100644").data)
      = ⟨[], some ⟨x, [], true, some x, some devNull⟩, some x, some y, true⟩ := by
    have e2 : parseStep ⟨[], none, some x, some y, false⟩
        (("deleted file mode 100644").data)
        = stepDeleted ⟨[], none, some x, some y, false⟩ := rfl
    rw [e2]
    unfold stepDeleted pyOrStr
    dsimp only
    rw [if_neg hx]
  have h3 : parseStep ⟨[], some ⟨x, [], true, some x, some devNull⟩, some x, some y, true⟩
      (("index 3c8bf12..0000000").data)
      = ⟨[], some ⟨x, [], true, some x, some devNull⟩, some x, some y, true⟩ := rfl
  have h4 : parseStep ⟨[], some ⟨x, [], true, some x, some devNull⟩, some x, some y, true⟩
      (("--- a/").data ++ x)
      = ⟨[], some ⟨x, [], true, some x, some devNull⟩, some x, some y, true⟩ := by
    have hpre1 : isPre ("diff --git ").data (("--- a/").data ++ x) = false := rfl
    have hpre2 : isPre ("--- a/").data (("--- a/").data ++ x) = true := by
      have : ∀ t : Str, isPre ("--- a/").data (("--- a/").data ++ t) = true := by
        intro t; simp [isPre]
      exact this x
    have e4 : parseStep ⟨[], some ⟨x, [], true, some x, some devNull⟩, some x, some y, true⟩
        (("--- a/").data ++ x)
        = stepOldPath ⟨[], some ⟨x, [], true, some x, some devNull⟩, some x, some y, true⟩
            ((("--- a/").data ++ x).drop 6) := by
      unfold parseStep
      rw [hpre1, hpre2]
      simp
    rw [e4]
    rfl
  have h5 : parseStep ⟨[], some ⟨x, [], true, some x, some devNull⟩, some x, some y, true⟩
      (("+++ /dev/null").data)
      = ⟨[], some ⟨x, [], true, some x, some devNull⟩, some x, some y, true⟩ := rfl
  unfold parseDiffLines
  rw [List.foldl_cons, h1, List.foldl_cons, h2, List.foldl_cons, h3,
      List.foldl_cons, h4, List.foldl_cons, h5, List.foldl_nil]
  dsimp only
  unfold finalizeFD
  dsimp only
  rw [if_pos ⟨rfl, hx⟩]
  rw [List.nil_append, List.filter_cons]
  rw [if_pos (by simp [hx])]
  rfl

/-- Witness for C7 at a concrete path. -/
theorem claim_C7_witness :
    DiffUtil.parse_unified_diff (joinNL
      [("diff --git a/src/app.py b/src/app.py").data,
       ("deleted file mode 100644").data,
       ("index 3c8bf12..0000000").data,
       ("--- a/src/app.py").data,
       ("+++ /dev/null").data])
      = [⟨("src/app.py").data, [], true, some ("src/app.py").data, some devNull⟩] := by
  have := claim_C7_pure_deletion ("src/app.py").data ("src/app.py").data
    (by decide) (by decide) (by decide) (by decide)
  exact this

-- ----------------------- vector store model -----------------------

/-- The core payload `Indexer._build_payload` writes (stack plugins and
the `base_payload` merge only add enrichment keys — `stack_type`,
`component_type`, `tags`, `edges`, … — and never touch the keys below, so
they are omitted from the model). -/
structure Payload where
  point_id : Str
  logical_id : Str
  repo : Str
  path : Str
  symbol : Str
  branch : Str
  commit_sha : Str
  content_hash : Str
  sig_hash : Str
  is_latest : Bool
  lines : Int × Int
  byte_range : Nat × Nat
  language : Str
  neighbors : List Str
  block_id : Option Str
  block_lines : Option (Int × Int)
  block_byte_range : Option (Nat × Nat)
deriving DecidableEq

/-- A stored point (Qdrant record): its id and its payload.  Vectors are
irrelevant to the properties at issue and are omitted. -/
structure Point where
  id : Str
  pl : Payload
deriving DecidableEq

/-- The vector store: the list of stored points. -/
abbrev Store := List Point

/-- `scroll_by_logical(logical_id, is_latest)`: filter on the payload's
`logical_id` and `is_latest` keys, with the scroll page limit of 100. -/
def scroll_by_logical (st : Store) (lid : Str) (latest : Bool) : List Point :=
  (st.filter (fun p => decide (p.pl.logical_id = lid) && (p.pl.is_latest == latest))).take 100

/-- `set_payload(ids, {"is_latest": b})`. -/
def setIsLatest (st : Store) (ids : List Str) (b : Bool) : Store :=
  st.map (fun p => if p.id ∈ ids then { p with pl := { p.pl with is_latest := b } } else p)

/-- `set_payload(ids, {"lines": [s, e]})`. -/
def setLines (st : Store) (ids : List Str) (l : Int × Int) : Store :=
  st.map (fun p => if p.id ∈ ids then { p with pl := { p.pl with lines := l } } else p)

/-- A single Qdrant upsert: replace the point with the same id, or append
a new point. -/
def upsertOne (st : Store) (q : Point) : Store :=
  if st.any (fun p => decide (p.id = q.id)) then
    st.map (fun p => if p.id = q.id then q else p)
  else st ++ [q]

/-- `upsert_points` (batching splits the same sequence of single upserts
and is semantically the fold). -/
def upsert_points (st : Store) (pts : List Point) : Store := pts.foldl upsertOne st

/-- `client.delete(points_selector=PointIdsList(ids))`. -/
def deletePoints (st : Store) (ids : List Str) : Store :=
  st.filter (fun p => decide (p.id ∉ ids))

/-- `Indexer._build_payload(chunk, branch, commit_sha)`: the deterministic
point id is `str(uuid.uuid5(uuid.NAMESPACE_DNS, f"{logical_id}:{content_hash}"))`. -/
def buildPayload (repoName : Str) (c : Chunk) (branch commitSha : Str) : Payload :=
  let pid := uuid5DNS (c.logical_id ++ (":").data ++ c.content_hash)
  { point_id := pid
    logical_id := c.logical_id
    repo := repoName
    path := c.path
    symbol := c.symbol
    branch := branch
    commit_sha := commitSha
    content_hash := c.content_hash
    sig_hash := c.sig_hash
    is_latest := true
    lines := (c.range.start_line, c.range.end_line)
    byte_range := (c.range.byte_start, c.range.byte_end)
    language := c.language
    neighbors := c.neighbors
    block_id := c.block_id
    block_lines := c.block_range.map (fun r => (r.start_line, r.end_line))
    block_byte_range := c.block_range.map (fun r => (r.byte_start, r.byte_end)) }

/-- `PointStruct(id=payload["point_id"], vector=v, payload=payload)`. -/
def mkPoint (repoName : Str) (c : Chunk) (branch commitSha : Str) : Point :=
  ⟨(buildPayload repoName c branch commitSha).point_id,
   buildPayload repoName c branch commitSha⟩

/-- The `{c.symbol: c for c in chunks}` dictionary: last chunk wins per
symbol, insertion order of first occurrence preserved. -/
def dedupBySymbol (cs : List Chunk) : List Chunk :=
  cs.foldl (fun acc c =>
    if acc.any (fun d => decide (d.symbol = c.symbol)) then
      acc.map (fun d => if d.symbol = c.symbol then c else d)
    else acc ++ [c]) []

-- ----------------------- relocalizer -----------------------

/-- Scan for the first occurrence of `needle`, carrying the absolute
position (Python `str.find`). -/
def strFindGo (needle : Str) : Str → Nat → Option Nat
  | [], i => if isPre needle [] then some i else none
  | s@(_ :: rest), i => if isPre needle s then some i else strFindGo needle rest (i + 1)

/-- Python `head_src.find(base_slice)`. -/
def strFind (s needle : Str) : Option Nat := strFindGo needle s 0

/-- `Relocalizer.exact_relocate`: verbatim search, line pair from the new
byte offsets. -/
def exact_relocate (baseSlice headSrc : Str) : Option (Nat × Nat) :=
  match strFind headSrc baseSlice with
  | none => none
  | some idx =>
    some (byteToLine headSrc idx, byteToLine headSrc (idx + baseSlice.length) - 1)

/-- The stride loop of `Relocalizer.fuzzy_relocate`. -/
def fuzzyGo (baseHash : Str) (headSrc : Str) (window stride stop : Nat) :
    Nat → Nat → Option (Nat × Nat)
  | 0, _ => none
  | fuel + 1, s =>
    if s < stop then
      let win := pySlice headSrc s (s + window)
      if sha256Hex win = baseHash then
        some (byteToLine headSrc s, byteToLine headSrc (s + win.length) - 1)
      else fuzzyGo baseHash headSrc window stride stop fuel (s + stride)
    else none

/-- `Relocalizer.fuzzy_relocate` (window 2000, quarter-window stride). -/
def fuzzy_relocate (baseSlice headSrc : Str) : Option (Nat × Nat) :=
  let window := 2000
  let stop := if headSrc.length + 1 ≥ window then headSrc.length + 1 - window else 0
  fuzzyGo (sha256Hex baseSlice) headSrc window (max 1 (window / 4)) stop (stop + 1) 0

/-- `exact_relocate(...) or fuzzy_relocate(...)`. -/
def relocateBoth (baseSlice headSrc : Str) : Option (Nat × Nat) :=
  match exact_relocate baseSlice headSrc with
  | some lc => some lc
  | none => fuzzy_relocate baseSlice headSrc

-- ----------------------- indexing routines -----------------------

/-- The per-file commit of a full index (router full path and
`Indexer.full_index`): every chunk is embedded and upserted with
`is_latest = true`; no demotion of previous latest points occurs. -/
def fullIndexCommit (st : Store) (repoName : Str) (cs : List Chunk)
    (branch head : Str) : Store :=
  upsert_points st (cs.map (fun c => mkPoint repoName c branch head))

/-- The embed branch of the incremental update (router lines 474–485 and
`Indexer.index_commit` lines 951–961): per chunk, scroll the current
latest points for its logical id and demote them, collect the new point;
then upsert the collected points in one batch. -/
def embedCommit (st : Store) (repoName : Str) (cs : List Chunk)
    (branch commitSha : Str) : Store :=
  let phase := cs.foldl (fun (acc : Store × List Point) c =>
    let olds := scroll_by_logical acc.1 c.logical_id true
    let st' := if olds = [] then acc.1 else setIsLatest acc.1 (olds.map Point.id) false
    (st', acc.2 ++ [mkPoint repoName c branch commitSha])) (st, [])
  upsert_points phase.1 phase.2

/-- The position-only branch of the incremental update (router lines
487–491; `Indexer.index_commit` lines 962–969 reduce to the same loop):
patch ONLY the `lines` key of the current latest points. -/
def posPatch (st : Store) (pairs : List (Chunk × Range)) : Store :=
  pairs.foldl (fun st cr =>
    let olds := scroll_by_logical st cr.1.logical_id true
    if olds = [] then st
    else setLines st (olds.map Point.id) (cr.2.start_line, cr.2.end_line)) st

/-- The chunk classification of the router's update loop (lines 460–472):
no latest point → embed; `base != head` → embed (no content-hash
comparison!); otherwise translate, embed on `relocalize`, else
position-only. -/
def classifyRouter (st : Store) (baseNeHead : Bool) (hunks : List Hunk) :
    List Chunk → List Chunk × List (Chunk × Range)
  | [] => ([], [])
  | c :: cs =>
    let rest := classifyRouter st baseNeHead hunks cs
    let olds := scroll_by_logical st c.logical_id true
    if olds = [] then (c :: rest.1, rest.2)
    else if baseNeHead then (c :: rest.1, rest.2)
    else
      let tr := DiffUtil.translate c.range hunks
      if tr.relocalize then (c :: rest.1, rest.2)
      else (rest.1, (c, tr) :: rest.2)

/-- The chunk classification of `Indexer.index_commit` (lines 933–950):
no latest point → embed; differing `content_hash` → embed; otherwise
translate and, when flagged and a base slice is available, attempt exact
then fuzzy relocalization, then position-only. -/
def classifyIndexer (st : Store) (hunks : List Hunk) (baseSrc headSrc : Str) :
    List Chunk → List Chunk × List (Chunk × Range)
  | [] => ([], [])
  | c :: cs =>
    let rest := classifyIndexer st hunks baseSrc headSrc cs
    match scroll_by_logical st c.logical_id true with
    | [] => (c :: rest.1, rest.2)
    | prev :: _ =>
      if prev.pl.content_hash ≠ c.content_hash then (c :: rest.1, rest.2)
      else
        let tr := DiffUtil.translate c.range hunks
        let tr' :=
          if tr.relocalize = true ∧ baseSrc ≠ [] then
            let br := prev.pl.byte_range
            let baseSlice :=
              if br.1 ≤ br.2 ∧ br.2 ≤ baseSrc.length then pySlice baseSrc br.1 br.2
              else []
            if baseSlice ≠ [] then
              match relocateBoth baseSlice headSrc with
              | some lc => Range.mk lc.1 lc.2 br.1 br.2 false
              | none => tr
            else tr
          else tr
        (rest.1, (c, tr') :: rest.2)

/-- One non-deleted FileDiff of the router's update loop: chunk the head
source (symbol-keyed dictionary), classify, embed-and-upsert the embed
list, then patch positions. -/
def routerFileStep (st : Store) (repoName path branch commitSha : Str)
    (baseNeHead : Bool) (headSrc : Str) (hunks : List Hunk) : Store :=
  let cs := dedupBySymbol (chunkerChunks headSrc path repoName)
  let cls := classifyRouter st baseNeHead hunks cs
  let st1 := if cls.1 = [] then st else embedCommit st repoName cls.1 branch commitSha
  if cls.2 = [] then st1 else posPatch st1 cls.2

/-- The `is_deleted` branch of the router's update loop (lines 358–386):
if the base source is readable, re-chunk it, collect the ids of every
chunk's current latest points, and delete exactly those points. -/
def deleteStep (st : Store) (repoName path : Str) (baseSrc : Str) : Store :=
  if baseSrc = [] then st
  else
    let cs := dedupBySymbol (chunkerChunks baseSrc path repoName)
    let removeIds := cs.foldl
      (fun acc c => acc ++ (scroll_by_logical st c.logical_id true).map Point.id) []
    if removeIds = [] then st else deletePoints st removeIds

-- ----------------------- invariants -----------------------

/-- Number of latest points for one `(repo, branch, logical_id)` triple. -/
def latestKeyCount (st : Store) (repo branch lid : Str) : Nat :=
  (st.filter (fun p => decide (p.pl.repo = repo) && decide (p.pl.branch = branch) &&
    decide (p.pl.logical_id = lid) && (p.pl.is_latest == true))).length

/-- The is-latest invariant of the spec: at most one latest point per
`(repo, branch, logical_id)`. -/
def InvLatest (st : Store) : Prop :=
  ∀ repo branch lid, latestKeyCount st repo branch lid ≤ 1

/-- Number of latest points sharing one logical id (across repos and
branches — what `scroll_by_logical` sees). -/
def lidLatestCount (st : Store) (lid : Str) : Nat :=
  (st.filter (fun p => decide (p.pl.logical_id = lid) && (p.pl.is_latest == true))).length

-- ----------------------- claim C5 -----------------------

/-- Claim C5: the point id placed in the payload (and used as the stored
point's id) is the UUIDv5, under the fixed namespace `uuid.NAMESPACE_DNS`,
of `logical_id + ":" + content_hash`; it depends on nothing else (any two
chunks agreeing on that pair get the same id, whatever their repo, branch,
commit, content or position), and re-upserting the same point is
idempotent. -/
theorem claim_C5_point_id :
    (∀ (repoName : Str) (c : Chunk) (branch sha : Str),
      (buildPayload repoName c branch sha).point_id
        = uuid5DNS (c.logical_id ++ (":").data ++ c.content_hash) ∧
      (mkPoint repoName c branch sha).id
        = (buildPayload repoName c branch sha).point_id) ∧
    (∀ (r1 r2 : Str) (c1 c2 : Chunk) (b1 b2 s1 s2 : Str),
      c1.logical_id = c2.logical_id → c1.content_hash = c2.content_hash →
      (buildPayload r1 c1 b1 s1).point_id = (buildPayload r2 c2 b2 s2).point_id) ∧
    (∀ (st : Store) (q : Point), upsertOne (upsertOne st q) q = upsertOne st q) := by
  refine ⟨fun repoName c branch sha => ⟨rfl, rfl⟩, ?_, ?_⟩
  · intro r1 r2 c1 c2 b1 b2 s1 s2 hl hh
    show uuid5DNS (c1.logical_id ++ (":").data ++ c1.content_hash)
      = uuid5DNS (c2.logical_id ++ (":").data ++ c2.content_hash)
    rw [hl, hh]
  · intro st q
    by_cases hany : st.any (fun p => decide (p.id = q.id)) = true
    · have h1 : upsertOne st q = st.map (fun p => if p.id = q.id then q else p) := by
        unfold upsertOne
        rw [if_pos hany]
      have hany2 : (st.map (fun p => if p.id = q.id then q else p)).any
          (fun p => decide (p.id = q.id)) = true := by
        rcases List.any_eq_true.mp hany with ⟨p, hp, hpq⟩
        refine List.any_eq_true.mpr ⟨if p.id = q.id then q else p, List.mem_map_of_mem _ hp, ?_⟩
        rw [if_pos (of_decide_eq_true hpq)]
        simp
      rw [h1]
      unfold upsertOne
      rw [if_pos hany2, List.map_map]
      apply List.map_congr_left
      intro p _
      simp only [Function.comp]
      by_cases hpq : p.id = q.id
      · rw [if_pos hpq]
        rw [if_pos rfl]
      · rw [if_neg hpq, if_neg hpq]
    · have h1 : upsertOne st q = st ++ [q] := by
        unfold upsertOne
        rw [if_neg hany]
      have hany2 : (st ++ [q]).any (fun p => decide (p.id = q.id)) = true := by
        refine List.any_eq_true.mpr ⟨q, by simp, by simp⟩
      rw [h1]
      unfold upsertOne
      rw [if_pos hany2, List.map_append]
      have hmap1 : st.map (fun p => if p.id = q.id then q else p) = st := by
        have hcong : ∀ p ∈ st, (fun p => if p.id = q.id then q else p) p = id p := by
          intro p hp
          have hne : ¬ (p.id = q.id) := by
            intro he
            exact hany (List.any_eq_true.mpr ⟨p, hp, decide_eq_true he⟩)
          simp only [id]
          rw [if_neg hne]
        rw [List.map_congr_left hcong, List.map_id]
      rw [hmap1]
      simp

/-- Witness for C5: two chunks agreeing only on `(logical_id,
content_hash)` — different repo, path, symbol, language, range, content,
sig_hash, branch and commit — receive the same point id. -/
theorem claim_C5_witness :
    (buildPayload ("r1").data
      ⟨("r:f.py#func:a").data, ("func:a").data, ("f.py").data, ("python").data,
        ⟨1, 2, 0, 9, false⟩, ("v1").data, ("h0").data, ("s1").data, [], none, none⟩
      ("main").data ("c1").data).point_id
    = (buildPayload ("r2").data
      ⟨("r:f.py#func:a").data, ("func:b").data, ("g.py").data, ("generic").data,
        ⟨5, 9, 3, 7, true⟩, ("v2").data, ("h0").data, ("s2").data, [], none, none⟩
      ("dev").data ("c2").data).point_id :=
  claim_C5_point_id.2.1 ("r1").data ("r2").data _ _ ("main").data ("dev").data
    ("c1").data ("c2").data rfl rfl

-- ----------------------- claim C1 -----------------------

lemma latestKeyCount_le_length (st : Store) (r b l : Str) :
    latestKeyCount st r b l ≤ st.length :=
  List.length_filter_le _ _

/-- The store after a first full index of `f.txt` containing `a` at
commit c0. -/
def c1st1 : Store :=
  fullIndexCommit [] ("r").data
    (chunkerChunks ("a\n").data ("f.txt").data ("r").data) ("main").data ("c0").data

/-- The store after a second full index at commit c1, where the file now
contains `b`. -/
def c1st2 : Store :=
  fullIndexCommit c1st1 ("r").data
    (chunkerChunks ("b\n").data ("f.txt").data ("r").data) ("main").data ("c1").data

/-- Claim C1 (counterexample): `full_index` upserts every chunk with
`is_latest = true` and never demotes: re-running a full index over the
same repository after its file changed leaves TWO latest points for the
same `(repo, branch, logical_id)` — the invariant holds after the first
run and is violated by the second. -/
theorem claim_C1_counterexample :
    InvLatest c1st1 ∧
    latestKeyCount c1st2 ("r").data ("main").data ("r:f.txt#range:0001-0001").data = 2 ∧
    ¬ InvLatest c1st2 := by
  refine ⟨?_, by decide, ?_⟩
  · intro r b l
    exact le_trans (latestKeyCount_le_length c1st1 r b l) (by decide)
  · intro hinv
    have h2 := hinv ("r").data ("main").data ("r:f.txt#range:0001-0001").data
    have h1 : latestKeyCount c1st2 ("r").data ("main").data
        ("r:f.txt#range:0001-0001").data = 2 := by decide
    omega

-- ----------------------- claim C2 -----------------------

/-- The single chunk of a one-line file, and the point a previous run
stored for it (same content, hence same content_hash). -/
def c2chunk : Chunk := (chunkerChunks ("a\n").data ("f.txt").data ("r").data).getD 0 chunk0

/-- The latest point an earlier indexing run left for that chunk. -/
def c2point : Point := mkPoint ("r").data c2chunk ("main").data ("c0").data

/-- Claim C2 (counterexample): in commit mode (`base != head`) the HTTP
update route classifies a head chunk as to-embed although a latest point
with the SAME `content_hash` exists — the route never compares content
hashes, so the unchanged chunk IS sent to the embedding client. -/
theorem claim_C2_counterexample :
    c2point.pl.content_hash = c2chunk.content_hash ∧
    scroll_by_logical [c2point] c2chunk.logical_id true = [c2point] ∧
    (classifyRouter [c2point] true [⟨5, 1, 5, 1⟩] [c2chunk]).1 = [c2chunk] := by
  refine ⟨by decide, by decide, by decide⟩

-- ----------------------- claim C3 -----------------------

/-- A stale latest point under path `p.py`: its symbol `func:foo` was
produced by an earlier revision of the file and no longer appears when
the current base revision is re-chunked. -/
def c3stale : Point :=
  ⟨("x1").data,
   { point_id := ("x1").data, logical_id := ("r:p.py#func:foo").data,
     repo := ("r").data, path := ("p.py").data, symbol := ("func:foo").data,
     branch := ("main").data, commit_sha := ("c0").data,
     content_hash := ("h1").data, sig_hash := ("s1").data, is_latest := true,
     lines := (1, 2), byte_range := (0, 4), language := ("python").data,
     neighbors := [], block_id := none, block_lines := none,
     block_byte_range := none }⟩

/-- Claim C3 (counterexample): the deletion branch deletes only the
latest points of the logical ids obtained by re-chunking the CURRENT base
source; a latest point under the same path whose logical id no longer
arises from that re-chunk (a stale symbol from an earlier revision)
survives with `is_latest = true`, although its `logical_id` starts with
`repo:path#`. -/
theorem claim_C3_counterexample :
    deleteStep [c3stale] ("r").data ("p.py").data ("a\n").data = [c3stale] ∧
    isPre ("r:p.py#").data c3stale.pl.logical_id = true ∧
    c3stale.pl.is_latest = true := by
  refine ⟨by decide, by decide, by decide⟩

/-- Claim C2 (amended): in `Indexer.index_commit` the embed list is
EXACTLY the head chunks that have no current latest point or whose
`content_hash` differs from the latest point's stored hash, and the
position-only list is exactly the complement (chunks with a latest point
and an equal hash) — an unchanged chunk is never embedded there.  (The
HTTP update route diverges: with `base != head` it embeds every chunk
that has a latest point without comparing hashes — see the
counterexample.) -/
theorem claim_C2_amended :
    ∀ (st : Store) (hunks : List Hunk) (baseSrc headSrc : Str) (cs : List Chunk),
      (classifyIndexer st hunks baseSrc headSrc cs).1
        = cs.filter (fun c =>
            match scroll_by_logical st c.logical_id true with
            | [] => true
            | prev :: _ => decide (prev.pl.content_hash ≠ c.content_hash)) ∧
      ((classifyIndexer st hunks baseSrc headSrc cs).2.map Prod.fst)
        = cs.filter (fun c =>
            match scroll_by_logical st c.logical_id true with
            | [] => false
            | prev :: _ => decide (prev.pl.content_hash = c.content_hash)) := by
  intro st hunks baseSrc headSrc cs
  induction cs with
  | nil => exact ⟨rfl, rfl⟩
  | cons c cs ih =>
    obtain ⟨ih1, ih2⟩ := ih
    rw [classifyIndexer]
    cases hscr : scroll_by_logical st c.logical_id true with
    | nil =>
      have hp1 : (match scroll_by_logical st c.logical_id true with
          | [] => true
          | prev :: _ => decide (prev.pl.content_hash ≠ c.content_hash)) = true := by
        rw [hscr]
      have hp2 : (match scroll_by_logical st c.logical_id true with
          | [] => false
          | prev :: _ => decide (prev.pl.content_hash = c.content_hash)) = false := by
        rw [hscr]
      constructor
      · rw [List.filter_cons, if_pos hp1]
        dsimp only
        rw [ih1]
      · rw [List.filter_cons, if_neg (by rw [hp2]; exact Bool.false_ne_true)]
        dsimp only
        rw [ih2]
    | cons prev rest =>
      by_cases hh : prev.pl.content_hash ≠ c.content_hash
      · have hp1 : (match scroll_by_logical st c.logical_id true with
            | [] => true
            | prev :: _ => decide (prev.pl.content_hash ≠ c.content_hash)) = true := by
          rw [hscr]
          exact decide_eq_true hh
        have hp2 : (match scroll_by_logical st c.logical_id true with
            | [] => false
            | prev :: _ => decide (prev.pl.content_hash = c.content_hash)) = false := by
          rw [hscr]
          exact decide_eq_false (fun he => hh he)
        constructor
        · rw [List.filter_cons, if_pos hp1]
          dsimp only
          rw [if_pos hh]
          dsimp only
          rw [ih1]
        · rw [List.filter_cons, if_neg (by rw [hp2]; exact Bool.false_ne_true)]
          dsimp only
          rw [if_pos hh]
          dsimp only
          rw [ih2]
      · have hp1 : (match scroll_by_logical st c.logical_id true with
            | [] => true
            | prev :: _ => decide (prev.pl.content_hash ≠ c.content_hash)) = false := by
          rw [hscr]
          exact decide_eq_false hh
        have hp2 : (match scroll_by_logical st c.logical_id true with
            | [] => false
            | prev :: _ => decide (prev.pl.content_hash = c.content_hash)) = true := by
          rw [hscr]
          exact decide_eq_true (not_not.mp hh)
        constructor
        · rw [List.filter_cons, if_neg (by rw [hp1]; exact Bool.false_ne_true)]
          dsimp only
          rw [if_neg hh]
          dsimp only
          rw [ih1]
        · rw [List.filter_cons, if_pos hp2]
          dsimp only
          rw [if_neg hh]
          dsimp only
          rw [List.map_cons, ih2]

lemma foldl_append_flatten {α β : Type} (f : α → List β) :
    ∀ (cs : List α) (acc : List β),
      cs.foldl (fun a c => a ++ f c) acc = acc ++ (cs.map f).flatten := by
  intro cs
  induction cs with
  | nil => intro acc; simp
  | cons c cs ih =>
    intro acc
    rw [List.foldl_cons, ih]
    simp [List.append_assoc]

lemma scroll_mem {st : Store} {lid : Str} {latest : Bool} {p : Point}
    (hp : p ∈ scroll_by_logical st lid latest) :
    p ∈ st ∧ p.pl.logical_id = lid ∧ p.pl.is_latest = latest := by
  unfold scroll_by_logical at hp
  have h1 := List.mem_of_mem_take hp
  have h2 := List.mem_filter.mp h1
  refine ⟨h2.1, ?_, ?_⟩
  · have := h2.2
    simp only [Bool.and_eq_true, decide_eq_true_eq] at this
    exact this.1
  · have := h2.2
    simp only [Bool.and_eq_true, decide_eq_true_eq, beq_iff_eq] at this
    exact this.2

lemma scroll_complete {st : Store} {lid : Str} {p : Point}
    (hcount : lidLatestCount st lid ≤ 100)
    (hp : p ∈ st) (hlid : p.pl.logical_id = lid) (hlat : p.pl.is_latest = true) :
    p ∈ scroll_by_logical st lid true := by
  unfold scroll_by_logical
  have hmem : p ∈ st.filter
      (fun p => decide (p.pl.logical_id = lid) && (p.pl.is_latest == true)) := by
    refine List.mem_filter.mpr ⟨hp, ?_⟩
    simp [hlid, hlat]
  have hlen : (st.filter
      (fun p => decide (p.pl.logical_id = lid) && (p.pl.is_latest == true))).length ≤ 100 :=
    hcount
  rw [List.take_of_length_le hlen]
  exact hmem

lemma point_eq_of_nodup_id {st : Store} (hnodup : (st.map Point.id).Nodup)
    {p q : Point} (hp : p ∈ st) (hq : q ∈ st) (hid : p.id = q.id) : p = q :=
  List.inj_on_of_nodup_map hnodup hp hq hid

/-- Claim C3 (amended): processing an `is_deleted` FileDiff removes
exactly the current latest points of the logical ids obtained by
re-chunking the base source: nothing is added, non-latest points are left
alone, and every latest point whose logical id is among the re-chunked
ids is deleted.  Latest points under the path whose logical id does not
arise from the re-chunk survive (see the counterexample), as does
everything when the base source is unreadable. -/
theorem claim_C3_amended (st : Store) (repoName path baseSrc : Str) :
    (∀ p, p ∈ deleteStep st repoName path baseSrc → p ∈ st) ∧
    ((st.map Point.id).Nodup → ∀ p, p ∈ st → p.pl.is_latest = false →
      p ∈ deleteStep st repoName path baseSrc) ∧
    (baseSrc ≠ [] → ∀ p, p ∈ st → p.pl.is_latest = true →
      p.pl.logical_id ∈ (dedupBySymbol (chunkerChunks baseSrc path repoName)).map Chunk.logical_id →
      lidLatestCount st p.pl.logical_id ≤ 100 →
      p ∉ deleteStep st repoName path baseSrc) := by
  set cs := dedupBySymbol (chunkerChunks baseSrc path repoName) with hcs
  set removeIds := cs.foldl
    (fun acc c => acc ++ (scroll_by_logical st c.logical_id true).map Point.id) [] with hrem
  have hremflat : removeIds
      = (cs.map (fun c => (scroll_by_logical st c.logical_id true).map Point.id)).flatten := by
    rw [hrem, foldl_append_flatten]
    rfl
  have hstep : deleteStep st repoName path baseSrc
      = if baseSrc = [] then st
        else if removeIds = [] then st else deletePoints st removeIds := rfl
  refine ⟨?_, ?_, ?_⟩
  · intro p hp
    rw [hstep] at hp
    by_cases h0 : baseSrc = []
    · rwa [if_pos h0] at hp
    · rw [if_neg h0] at hp
      by_cases h1 : removeIds = []
      · rwa [if_pos h1] at hp
      · rw [if_neg h1] at hp
        exact (List.mem_filter.mp hp).1
  · intro hnodup p hp hlat
    rw [hstep]
    by_cases h0 : baseSrc = []
    · rwa [if_pos h0]
    · rw [if_neg h0]
      by_cases h1 : removeIds = []
      · rwa [if_pos h1]
      · rw [if_neg h1]
        refine List.mem_filter.mpr ⟨hp, ?_⟩
        refine decide_eq_true ?_
        intro hidmem
        rw [hremflat] at hidmem
        rcases List.mem_flatten.mp hidmem with ⟨ids, hids, hidin⟩
        rcases List.mem_map.mp hids with ⟨c, _, hceq⟩
        subst hceq
        rcases List.mem_map.mp hidin with ⟨q, hq, hqid⟩
        obtain ⟨hqst, _, hqlat⟩ := scroll_mem hq
        have := point_eq_of_nodup_id hnodup hp hqst hqid.symm
        rw [this] at hlat
        rw [hqlat] at hlat
        cases hlat
  · intro h0 p hp hlat hlidmem hcount
    rw [hstep, if_neg h0]
    rcases List.mem_map.mp hlidmem with ⟨c, hc, hclid⟩
    have hscroll : p ∈ scroll_by_logical st c.logical_id true :=
      scroll_complete (by rw [hclid]; exact hcount) hp hclid.symm hlat
    have hidmem : p.id ∈ removeIds := by
      rw [hremflat]
      refine List.mem_flatten.mpr
        ⟨(scroll_by_logical st c.logical_id true).map Point.id, ?_, ?_⟩
      · exact List.mem_map_of_mem _ hc
      · exact List.mem_map_of_mem _ hscroll
    have h1 : removeIds ≠ [] := by
      intro he
      rw [he] at hidmem
      cases hidmem
    rw [if_neg h1]
    intro hmem
    have := (List.mem_filter.mp hmem).2
    rw [decide_eq_true_eq] at this
    exact this hidmem

/-- Witness for C3 (amended) at a concrete store: a non-latest point
under the deleted path survives the deletion step. -/
theorem claim_C3_amended_witness :
    ⟨("x1").data, { c3stale.pl with is_latest := false }⟩ ∈
      deleteStep [⟨("x1").data, { c3stale.pl with is_latest := false }⟩]
        ("r").data ("p.py").data ("a\n").data :=
  (claim_C3_amended [⟨("x1").data, { c3stale.pl with is_latest := false }⟩]
    ("r").data ("p.py").data ("a\n").data).2.1 (by decide) _ (by decide) (by decide)

-- ----------------------- claim C6 -----------------------

/-- A point's position payload is consistent with a source text: the byte
range is a non-empty in-bounds interval, `content_hash` is the sha256 of
the byte slice the range denotes, and `lines` is the 1-based line span of
that byte range (computed with the sources' own `_byte_to_line`). -/
def PointConsistentWith (src : Str) (p : Point) : Prop :=
  p.pl.byte_range.1 < p.pl.byte_range.2 ∧ p.pl.byte_range.2 ≤ src.length ∧
  p.pl.content_hash = sha256Hex (pySlice src p.pl.byte_range.1 p.pl.byte_range.2) ∧
  p.pl.lines = ((byteToLine src p.pl.byte_range.1 : Int),
                (byteToLine src (p.pl.byte_range.2 - 1) : Int))

instance decPointConsistentWith (src : Str) (p : Point) :
    Decidable (PointConsistentWith src p) :=
  inferInstanceAs (Decidable (_ ∧ _ ∧ _ ∧ _))

/-- Claim C6's invariant: the payload's `byte_range` and `lines` refer to
the revision identified by the payload's `commit_sha`. -/
def PointConsistent (revs : Str → Option Str) (p : Point) : Prop :=
  match revs p.pl.commit_sha with
  | none => False
  | some src => PointConsistentWith src p

instance decPointConsistent (revs : Str → Option Str) (p : Point) :
    Decidable (PointConsistent revs p) :=
  match hr : revs p.pl.commit_sha with
  | none => isFalse (fun h => by unfold PointConsistent at h; rw [hr] at h; exact h)
  | some src =>
    decidable_of_iff (PointConsistentWith src p)
      (by unfold PointConsistent; rw [hr])

/-- The base revision of the C6 scenario: 121 one-character lines. -/
def c6B : Str := joinNL (List.replicate 121 [Char.ofNat 97])

/-- The point a previous consistent run stored for window 1 (lines 1–120)
of that file at commit c0. -/
def c6p1 : Point :=
  mkPoint ("r").data
    ((chunkerChunks c6B ("p.txt").data ("r").data).getD 0 chunk0)
    ("main").data ("c0").data

/-- The working tree after inserting one line at the top. -/
def c6H : Str := ("x").data ++ [chNL] ++ c6B

/-- The revision map: only commit c0 exists. -/
def c6revs : Str → Option Str := fun s => if s = ("c0").data then some c6B else none

/-- The store after the update run processes the file in working-tree
mode (`base == head`, `commit_sha = base = c0`) with the insertion hunk
`@@ -0,0 +1 @@`. -/
def c6after : Store :=
  routerFileStep [c6p1] ("r").data ("p.txt").data ("main").data ("c0").data
    false c6H [⟨0, 0, 1, 1⟩]

/-- The point with `c6p1`'s id after the run. -/
def c6p1After : Point := (c6after.filter (fun p => decide (p.id = c6p1.id))).getD 0 c6p1

set_option maxHeartbeats 4000000 in
/-- Claim C6 (counterexample): the stored point is consistent with
revision c0 before the run; the position-only path then patches its
`lines` to the translated head coordinates (2, 121) while `commit_sha`
stays c0 and `byte_range`/`content_hash` keep their c0 values — after the
patch `lines` no longer matches the line span of `byte_range` in the
revision named by `commit_sha`. -/
theorem claim_C6_counterexample :
    PointConsistent c6revs c6p1 ∧
    c6p1.pl.lines = (1, 120) ∧
    c6p1After.pl.lines = (2, 121) ∧
    c6p1After.pl.commit_sha = ("c0").data ∧
    c6p1After.pl.byte_range = c6p1.pl.byte_range ∧
    c6p1After.pl.content_hash = c6p1.pl.content_hash ∧
    ¬ PointConsistent c6revs c6p1After := by
  refine ⟨by decide, by decide, by decide, by decide, by decide, by decide, by decide⟩

/-- Everything of a point except its `lines` payload key. -/
def SameCore (q p : Point) : Prop :=
  q.id = p.id ∧ q.pl.commit_sha = p.pl.commit_sha ∧
  q.pl.byte_range = p.pl.byte_range ∧ q.pl.content_hash = p.pl.content_hash ∧
  q.pl.is_latest = p.pl.is_latest

/-- Everything of a point except its `is_latest` payload key. -/
def SamePosition (q p : Point) : Prop :=
  q.id = p.id ∧ q.pl.commit_sha = p.pl.commit_sha ∧
  q.pl.byte_range = p.pl.byte_range ∧ q.pl.lines = p.pl.lines ∧
  q.pl.content_hash = p.pl.content_hash

lemma sameCore_refl (p : Point) : SameCore p p := ⟨rfl, rfl, rfl, rfl, rfl⟩

lemma sameCore_trans {a b c : Point} (h1 : SameCore a b) (h2 : SameCore b c) :
    SameCore a c := by
  obtain ⟨x1, x2, x3, x4, x5⟩ := h1
  obtain ⟨y1, y2, y3, y4, y5⟩ := h2
  exact ⟨x1.trans y1, x2.trans y2, x3.trans y3, x4.trans y4, x5.trans y5⟩

lemma setLines_frame {st : Store} {ids : List Str} {l : Int × Int} {q : Point}
    (hq : q ∈ setLines st ids l) : ∃ p, p ∈ st ∧ SameCore q p := by
  unfold setLines at hq
  rcases List.mem_map.mp hq with ⟨p, hp, hpe⟩
  refine ⟨p, hp, ?_⟩
  by_cases hid : p.id ∈ ids
  · rw [if_pos hid] at hpe
    subst hpe
    exact ⟨rfl, rfl, rfl, rfl, rfl⟩
  · rw [if_neg hid] at hpe
    subst hpe
    exact sameCore_refl p

lemma posPatch_frame :
    ∀ (pairs : List (Chunk × Range)) (st : Store) (q : Point),
      q ∈ posPatch st pairs → ∃ p, p ∈ st ∧ SameCore q p := by
  intro pairs
  induction pairs with
  | nil =>
    intro st q hq
    exact ⟨q, hq, sameCore_refl q⟩
  | cons cr prs ih =>
    intro st q hq
    rw [posPatch] at hq
    rw [List.foldl_cons] at hq
    have hq' : q ∈ posPatch
        (if scroll_by_logical st cr.1.logical_id true = [] then st
         else setLines st ((scroll_by_logical st cr.1.logical_id true).map Point.id)
           (cr.2.start_line, cr.2.end_line)) prs := by
      rw [posPatch]
      exact hq
    rcases ih _ q hq' with ⟨r, hr, hqr⟩
    by_cases h0 : scroll_by_logical st cr.1.logical_id true = []
    · rw [if_pos h0] at hr
      exact ⟨r, hr, hqr⟩
    · rw [if_neg h0] at hr
      rcases setLines_frame hr with ⟨p, hp, hrp⟩
      exact ⟨p, hp, sameCore_trans hqr hrp⟩

lemma setIsLatest_frame {st : Store} {ids : List Str} {b : Bool} {q : Point}
    (hq : q ∈ setIsLatest st ids b) : ∃ p, p ∈ st ∧ SamePosition q p := by
  unfold setIsLatest at hq
  rcases List.mem_map.mp hq with ⟨p, hp, hpe⟩
  refine ⟨p, hp, ?_⟩
  by_cases hid : p.id ∈ ids
  · rw [if_pos hid] at hpe
    subst hpe
    exact ⟨rfl, rfl, rfl, rfl, rfl⟩
  · rw [if_neg hid] at hpe
    subst hpe
    exact ⟨rfl, rfl, rfl, rfl, rfl⟩

lemma samePosition_trans {a b c : Point} (h1 : SamePosition a b)
    (h2 : SamePosition b c) : SamePosition a c := by
  obtain ⟨x1, x2, x3, x4, x5⟩ := h1
  obtain ⟨y1, y2, y3, y4, y5⟩ := h2
  exact ⟨x1.trans y1, x2.trans y2, x3.trans y3, x4.trans y4, x5.trans y5⟩

lemma upsertOne_mem {st : Store} {q : Point} {r : Point}
    (hr : r ∈ upsertOne st q) : r ∈ st ∨ r = q := by
  unfold upsertOne at hr
  by_cases hany : st.any (fun p => decide (p.id = q.id)) = true
  · rw [if_pos hany] at hr
    rcases List.mem_map.mp hr with ⟨p, hp, hpe⟩
    by_cases hid : p.id = q.id
    · rw [if_pos hid] at hpe
      exact Or.inr hpe.symm
    · rw [if_neg hid] at hpe
      exact Or.inl (hpe ▸ hp)
  · rw [if_neg hany] at hr
    rcases List.mem_append.mp hr with h | h
    · exact Or.inl h
    · exact Or.inr (List.mem_singleton.mp h)

lemma upsert_points_mem :
    ∀ (pts : List Point) (st : Store) (r : Point),
      r ∈ upsert_points st pts → r ∈ st ∨ r ∈ pts := by
  intro pts
  induction pts with
  | nil =>
    intro st r hr
    exact Or.inl hr
  | cons q pts ih =>
    intro st r hr
    rw [upsert_points, List.foldl_cons] at hr
    rcases ih (upsertOne st q) r hr with h | h
    · rcases upsertOne_mem h with h' | h'
      · exact Or.inl h'
      · exact Or.inr (h' ▸ List.mem_cons_self q pts)
    · exact Or.inr (List.mem_cons_of_mem q h)

lemma embedCommit_phase_spec (repoName branch commitSha : Str) :
    ∀ (cs : List Chunk) (st : Store) (acc : List Point),
      (∀ q, q ∈ (cs.foldl (fun (a : Store × List Point) c =>
          let olds := scroll_by_logical a.1 c.logical_id true
          let st' := if olds = [] then a.1
            else setIsLatest a.1 (olds.map Point.id) false
          (st', a.2 ++ [mkPoint repoName c branch commitSha])) (st, acc)).1 →
        ∃ p, p ∈ st ∧ SamePosition q p) ∧
      (cs.foldl (fun (a : Store × List Point) c =>
          let olds := scroll_by_logical a.1 c.logical_id true
          let st' := if olds = [] then a.1
            else setIsLatest a.1 (olds.map Point.id) false
          (st', a.2 ++ [mkPoint repoName c branch commitSha])) (st, acc)).2
        = acc ++ cs.map (fun c => mkPoint repoName c branch commitSha) := by
  intro cs
  induction cs with
  | nil =>
    intro st acc
    exact ⟨fun q hq => ⟨q, hq, ⟨rfl, rfl, rfl, rfl, rfl⟩⟩, by simp⟩
  | cons c cs ih =>
    intro st acc
    rw [List.foldl_cons]
    dsimp only
    set st' := if scroll_by_logical st c.logical_id true = [] then st
      else setIsLatest st ((scroll_by_logical st c.logical_id true).map Point.id) false
      with hst'
    obtain ⟨ihm, ihp⟩ := ih st' (acc ++ [mkPoint repoName c branch commitSha])
    constructor
    · intro q hq
      rcases ihm q hq with ⟨r, hr, hqr⟩
      have : ∃ p, p ∈ st ∧ SamePosition r p := by
        rw [hst'] at hr
        by_cases h0 : scroll_by_logical st c.logical_id true = []
        · rw [if_pos h0] at hr
          exact ⟨r, hr, ⟨rfl, rfl, rfl, rfl, rfl⟩⟩
        · rw [if_neg h0] at hr
          exact setIsLatest_frame hr
      rcases this with ⟨p, hp, hrp⟩
      exact ⟨p, hp, samePosition_trans hqr hrp⟩
    · rw [ihp]
      simp [List.append_assoc]

/-- Claim C6 (amended): the position-only path patches ONLY the `lines`
payload key — id, `commit_sha`, `byte_range`, `content_hash` and
`is_latest` of every point keep their previous values, so `commit_sha`
still names the revision the byte range was computed from while `lines`
may now be head coordinates.  Every point present after the embed branch
either descends from a pre-existing point with its position payload
(`commit_sha`, `byte_range`, `lines`, `content_hash`) unchanged (at most
`is_latest` was demoted), or is freshly built from one of the embedded
chunks; a freshly built point carries `commit_sha` as passed and `lines`
and `byte_range` taken verbatim from its chunk's range. -/
theorem claim_C6_amended :
    (∀ (st : Store) (pairs : List (Chunk × Range)) (q : Point),
      q ∈ posPatch st pairs → ∃ p, p ∈ st ∧ SameCore q p) ∧
    (∀ (st : Store) (repoName : Str) (cs : List Chunk) (branch sha : Str) (q : Point),
      q ∈ embedCommit st repoName cs branch sha →
      (∃ p, p ∈ st ∧ SamePosition q p) ∨
      (∃ c, c ∈ cs ∧ q = mkPoint repoName c branch sha)) ∧
    (∀ (repoName : Str) (c : Chunk) (branch sha : Str),
      (mkPoint repoName c branch sha).pl.commit_sha = sha ∧
      (mkPoint repoName c branch sha).pl.lines
        = (c.range.start_line, c.range.end_line) ∧
      (mkPoint repoName c branch sha).pl.byte_range
        = (c.range.byte_start, c.range.byte_end) ∧
      (mkPoint repoName c branch sha).pl.content_hash = c.content_hash ∧
      (mkPoint repoName c branch sha).pl.is_latest = true) := by
  refine ⟨fun st pairs q hq => posPatch_frame pairs st q hq, ?_, ?_⟩
  · intro st repoName cs branch sha q hq
    unfold embedCommit at hq
    obtain ⟨phm, php⟩ := embedCommit_phase_spec repoName branch sha cs st []
    rcases upsert_points_mem _ _ q hq with h | h
    · exact Or.inl (phm q h)
    · rw [php, List.nil_append] at h
      rcases List.mem_map.mp h with ⟨c, hc, hce⟩
      exact Or.inr ⟨c, hc, hce.symm⟩
  · intro repoName c branch sha
    exact ⟨rfl, rfl, rfl, rfl, rfl⟩

/-- A small stored point used by the C6 witness. -/
def c6wpt : Point :=
  mkPoint ("r").data
    ((chunkerChunks ("a\n").data ("w.txt").data ("r").data).getD 0 chunk0)
    ("main").data ("c0").data

/-- Witness for C6 (amended): applying the position-only frame to a
patched point shows it descends from a stored point with everything but
`lines` unchanged. -/
theorem claim_C6_amended_witness :
    ∃ p, p ∈ [c6wpt] ∧ SameCore
      ((setLines [c6wpt] [c6wpt.id] (5, 6)).getD 0 c6wpt) p := by
  have hmem : ((setLines [c6wpt] [c6wpt.id] (5, 6)).getD 0 c6wpt)
      ∈ posPatch [c6wpt]
        [(((chunkerChunks ("a\n").data ("w.txt").data ("r").data).getD 0 chunk0),
          ⟨5, 6, 0, 2, false⟩)] := by
    decide
  exact claim_C6_amended.1 [c6wpt] _ _ hmem
-- ----------------------- claim C1: counting lemmas -----------------------

lemma countP_filter_map_le {f : Point → Point} {P : Point → Bool}
    (hf : ∀ p, P (f p) = true → P p = true) :
    ∀ st : Store, ((st.map f).filter P).length ≤ (st.filter P).length := by
  intro st
  induction st with
  | nil => simp
  | cons p st ih =>
    rw [List.map_cons, List.filter_cons, List.filter_cons]
    cases hfp : P (f p) with
    | true =>
      rw [if_pos rfl, if_pos (hf p hfp)]
      simpa using ih
    | false =>
      rw [if_neg (by simp)]
      cases hp : P p with
      | true =>
        rw [if_pos rfl]
        refine le_trans ih ?_
        simp
      | false =>
        rw [if_neg (by simp)]
        exact ih

lemma countP_filter_map_eq {f : Point → Point} {P : Point → Bool}
    (hf : ∀ p, P (f p) = P p) :
    ∀ st : Store, ((st.map f).filter P).length = (st.filter P).length := by
  intro st
  induction st with
  | nil => simp
  | cons p st ih =>
    rw [List.map_cons, List.filter_cons, List.filter_cons, hf p]
    cases hp : P p with
    | true =>
      rw [if_pos rfl, if_pos rfl]
      simpa using ih
    | false =>
      rw [if_neg (by simp), if_neg (by simp)]
      exact ih

lemma countP_mono_pred {P Q : Point → Bool} (h : ∀ p, P p = true → Q p = true) :
    ∀ st : Store, (st.filter P).length ≤ (st.filter Q).length := by
  intro st
  induction st with
  | nil => simp
  | cons p st ih =>
    rw [List.filter_cons, List.filter_cons]
    cases hp : P p with
    | true =>
      rw [if_pos rfl, if_pos (h p hp)]
      simpa using ih
    | false =>
      rw [if_neg (by simp)]
      cases hq : Q p with
      | true =>
        rw [if_pos rfl]
        refine le_trans ih ?_
        simp
      | false =>
        rw [if_neg (by simp)]
        exact ih

lemma setIsLatest_false_countP_le (st : Store) (ids : List Str) (P : Point → Bool)
    (hP : ∀ p : Point, P { p with pl := { p.pl with is_latest := false } } = false) :
    ((setIsLatest st ids false).filter P).length ≤ (st.filter P).length := by
  unfold setIsLatest
  apply countP_filter_map_le
  intro p hp
  by_cases hid : p.id ∈ ids
  · rw [if_pos hid] at hp
    rw [hP p] at hp
    cases hp
  · rwa [if_neg hid] at hp

lemma setIsLatest_map_id (st : Store) (ids : List Str) (b : Bool) :
    (setIsLatest st ids b).map Point.id = st.map Point.id := by
  unfold setIsLatest
  rw [List.map_map]
  apply List.map_congr_left
  intro p _
  simp only [Function.comp]
  by_cases hid : p.id ∈ ids
  · rw [if_pos hid]
  · rw [if_neg hid]

lemma latestKeyCount_le_lidLatestCount (st : Store) (r b l : Str) :
    latestKeyCount st r b l ≤ lidLatestCount st l := by
  apply countP_mono_pred
  intro p hp
  simp only [Bool.and_eq_true, decide_eq_true_eq] at hp
  simp only [Bool.and_eq_true, decide_eq_true_eq]
  exact ⟨hp.1.2, hp.2⟩

lemma scroll_nil_lidLatestCount_zero {st : Store} {lid : Str}
    (h : scroll_by_logical st lid true = []) : lidLatestCount st lid = 0 := by
  unfold scroll_by_logical at h
  unfold lidLatestCount
  rcases List.take_eq_nil_iff.mp h with h' | h'
  · cases h'
  · rw [h']
    rfl

lemma setIsLatest_scroll_zero (st : Store) (lid : Str)
    (h100 : lidLatestCount st lid ≤ 100) :
    lidLatestCount
      (setIsLatest st ((scroll_by_logical st lid true).map Point.id) false) lid = 0 := by
  unfold lidLatestCount setIsLatest
  rw [List.length_eq_zero]
  rw [List.filter_eq_nil_iff]
  intro q hq
  rcases List.mem_map.mp hq with ⟨p, hp, hpe⟩
  by_cases hid : p.id ∈ (scroll_by_logical st lid true).map Point.id
  · rw [if_pos hid] at hpe
    subst hpe
    simp
  · rw [if_neg hid] at hpe
    subst hpe
    intro hpred
    apply hid
    refine List.mem_map_of_mem _ ?_
    unfold scroll_by_logical
    rw [List.take_of_length_le h100]
    exact List.mem_filter.mpr ⟨hp, hpred⟩

/-- The demote-then-collect fold of `embedCommit`, named so its counting
behaviour can be stated by induction. -/
def demotePhase (repoName branch commitSha : Str) (cs : List Chunk)
    (stacc : Store × List Point) : Store × List Point :=
  cs.foldl (fun (a : Store × List Point) c =>
    let olds := scroll_by_logical a.1 c.logical_id true
    let st' := if olds = [] then a.1
      else setIsLatest a.1 (olds.map Point.id) false
    (st', a.2 ++ [mkPoint repoName c branch commitSha])) stacc

lemma demotePhase_counts (repoName branch commitSha : Str) :
    ∀ (cs : List Chunk) (st : Store) (acc : List Point),
      (∀ c ∈ cs, lidLatestCount st c.logical_id ≤ 100) →
      (∀ r b l, latestKeyCount (demotePhase repoName branch commitSha cs (st, acc)).1 r b l
          ≤ latestKeyCount st r b l) ∧
      (∀ l, lidLatestCount (demotePhase repoName branch commitSha cs (st, acc)).1 l
          ≤ lidLatestCount st l) ∧
      (∀ c ∈ cs,
        lidLatestCount (demotePhase repoName branch commitSha cs (st, acc)).1 c.logical_id = 0) ∧
      (demotePhase repoName branch commitSha cs (st, acc)).1.map Point.id = st.map Point.id := by
  intro cs
  induction cs with
  | nil =>
    intro st acc _
    exact ⟨fun r b l => le_refl _, fun l => le_refl _,
           fun c hc => absurd hc (List.not_mem_nil c), rfl⟩
  | cons c cs ih =>
    intro st acc h100
    by_cases hnil : scroll_by_logical st c.logical_id true = []
    · have hstep : demotePhase repoName branch commitSha (c :: cs) (st, acc)
          = demotePhase repoName branch commitSha cs
              (st, acc ++ [mkPoint repoName c branch commitSha]) := by
        show demotePhase repoName branch commitSha cs
          ((if scroll_by_logical st c.logical_id true = [] then st
            else setIsLatest st ((scroll_by_logical st c.logical_id true).map Point.id) false),
           acc ++ [mkPoint repoName c branch commitSha]) = _
        rw [if_pos hnil]
      obtain ⟨ih1, ih2, ih3, ih4⟩ := ih st (acc ++ [mkPoint repoName c branch commitSha])
        (fun c' hc' => h100 c' (List.mem_cons_of_mem c hc'))
      rw [hstep]
      refine ⟨ih1, ih2, ?_, ih4⟩
      intro c' hc'
      rcases List.mem_cons.mp hc' with he | hc''
      · subst he
        have h0 := scroll_nil_lidLatestCount_zero hnil
        have hle := ih2 c'.logical_id
        omega
      · exact ih3 c' hc''
    · have hstep : demotePhase repoName branch commitSha (c :: cs) (st, acc)
          = demotePhase repoName branch commitSha cs
              (setIsLatest st ((scroll_by_logical st c.logical_id true).map Point.id) false,
               acc ++ [mkPoint repoName c branch commitSha]) := by
        show demotePhase repoName branch commitSha cs
          ((if scroll_by_logical st c.logical_id true = [] then st
            else setIsLatest st ((scroll_by_logical st c.logical_id true).map Point.id) false),
           acc ++ [mkPoint repoName c branch commitSha]) = _
        rw [if_neg hnil]
      have hkey : ∀ r b l,
          latestKeyCount
            (setIsLatest st ((scroll_by_logical st c.logical_id true).map Point.id) false) r b l
          ≤ latestKeyCount st r b l := by
        intro r b l
        exact setIsLatest_false_countP_le st _ _ (fun p => by simp)
      have hlid : ∀ l,
          lidLatestCount
            (setIsLatest st ((scroll_by_logical st c.logical_id true).map Point.id) false) l
          ≤ lidLatestCount st l := by
        intro l
        exact setIsLatest_false_countP_le st _ _ (fun p => by simp)
      have hzero :
          lidLatestCount
            (setIsLatest st ((scroll_by_logical st c.logical_id true).map Point.id) false)
            c.logical_id = 0 :=
        setIsLatest_scroll_zero st c.logical_id (h100 c (List.mem_cons_self c cs))
      have hid :
          (setIsLatest st ((scroll_by_logical st c.logical_id true).map Point.id) false).map
            Point.id = st.map Point.id :=
        setIsLatest_map_id st _ false
      obtain ⟨ih1, ih2, ih3, ih4⟩ := ih
        (setIsLatest st ((scroll_by_logical st c.logical_id true).map Point.id) false)
        (acc ++ [mkPoint repoName c branch commitSha])
        (fun c' hc' => le_trans (hlid c'.logical_id) (h100 c' (List.mem_cons_of_mem c hc')))
      rw [hstep]
      refine ⟨fun r b l => le_trans (ih1 r b l) (hkey r b l),
              fun l => le_trans (ih2 l) (hlid l), ?_, ih4.trans hid⟩
      intro c' hc'
      rcases List.mem_cons.mp hc' with he | hc''
      · subst he
        have hle := ih2 c'.logical_id
        omega
      · exact ih3 c' hc''

lemma replaceCount_zero {q : Point} {P : Point → Bool} :
    ∀ {st : Store}, (∀ p ∈ st, P p = false) → q.id ∉ st.map Point.id →
      ((st.map (fun p => if p.id = q.id then q else p)).filter P).length = 0 := by
  intro st
  induction st with
  | nil =>
    intro _ _
    simp
  | cons p st ih =>
    intro hall hnid
    have hpid : p.id ≠ q.id := fun he =>
      hnid (List.mem_map.mpr ⟨p, List.mem_cons_self p st, he⟩)
    rw [List.map_cons, if_neg hpid, List.filter_cons,
        if_neg (by simp [hall p (List.mem_cons_self p st)])]
    exact ih (fun x hx => hall x (List.mem_cons_of_mem p hx))
      (fun hc => hnid (by rw [List.map_cons]; exact List.mem_cons_of_mem _ hc))

lemma replaceCount_le_one {q : Point} {P : Point → Bool} :
    ∀ {st : Store}, (st.map Point.id).Nodup → (∀ p ∈ st, P p = false) →
      ((st.map (fun p => if p.id = q.id then q else p)).filter P).length ≤ 1 := by
  intro st
  induction st with
  | nil =>
    intro _ _
    simp
  | cons p st ih =>
    intro hnd hall
    have hnd' : (p.id :: st.map Point.id).Nodup := by
      rw [List.map_cons] at hnd
      exact hnd
    rw [List.map_cons, List.filter_cons]
    by_cases hpid : p.id = q.id
    · rw [if_pos hpid]
      have hq0 : ((st.map (fun p => if p.id = q.id then q else p)).filter P).length = 0 := by
        refine replaceCount_zero (fun x hx => hall x (List.mem_cons_of_mem p hx)) ?_
        rw [← hpid]
        exact (List.nodup_cons.mp hnd').1
      cases hPq : P q with
      | true =>
        rw [if_pos rfl, List.length_cons, hq0]
      | false =>
        rw [if_neg (by simp), hq0]
        exact Nat.zero_le 1
    · rw [if_neg hpid, if_neg (by simp [hall p (List.mem_cons_self p st)])]
      exact ih (List.nodup_cons.mp hnd').2 (fun x hx => hall x (List.mem_cons_of_mem p hx))

lemma upsertOne_nodup {st : Store} {q : Point} (h : (st.map Point.id).Nodup) :
    ((upsertOne st q).map Point.id).Nodup := by
  unfold upsertOne
  by_cases hany : st.any (fun p => decide (p.id = q.id)) = true
  · rw [if_pos hany, List.map_map]
    have he : st.map (Point.id ∘ fun p => if p.id = q.id then q else p) = st.map Point.id := by
      apply List.map_congr_left
      intro p _
      simp only [Function.comp]
      by_cases hid : p.id = q.id
      · rw [if_pos hid]
        exact hid.symm
      · rw [if_neg hid]
    rw [he]
    exact h
  · rw [if_neg hany, List.map_append, List.map_cons, List.map_nil]
    refine List.Nodup.append h (List.nodup_singleton q.id) ?_
    intro a ha hb
    have hae : a = q.id := List.mem_singleton.mp hb
    subst hae
    rcases List.mem_map.mp ha with ⟨p, hp, hpe⟩
    exact hany (List.any_eq_true.mpr ⟨p, hp, by simp [hpe]⟩)

lemma upsertOne_countP_le {st : Store} {q : Point} {P : Point → Bool}
    (hq : P q = false) :
    ((upsertOne st q).filter P).length ≤ (st.filter P).length := by
  unfold upsertOne
  by_cases hany : st.any (fun p => decide (p.id = q.id)) = true
  · rw [if_pos hany]
    refine countP_filter_map_le ?_ st
    intro p hp
    simp only at hp
    by_cases hid : p.id = q.id
    · rw [if_pos hid, hq] at hp
      cases hp
    · rwa [if_neg hid] at hp
  · rw [if_neg hany, List.filter_append]
    have hq1 : List.filter P [q] = [] := by
      rw [List.filter_cons, if_neg (by simp [hq])]
      rfl
    rw [hq1, List.append_nil]

lemma upsertOne_countP_le_one {st : Store} {q : Point} {P : Point → Bool}
    (hnodup : (st.map Point.id).Nodup) (hall : ∀ p ∈ st, P p = false) :
    ((upsertOne st q).filter P).length ≤ 1 := by
  unfold upsertOne
  by_cases hany : st.any (fun p => decide (p.id = q.id)) = true
  · rw [if_pos hany]
    exact replaceCount_le_one hnodup hall
  · rw [if_neg hany, List.filter_append]
    have h0 : List.filter P st = [] :=
      List.filter_eq_nil_iff.mpr (fun a ha => by simp [hall a ha])
    rw [h0, List.nil_append, List.filter_cons]
    cases hPq : P q with
    | true =>
      rw [if_pos rfl]
      rfl
    | false =>
      rw [if_neg (by simp)]
      exact Nat.zero_le 1

lemma upsertPhase_inv :
    ∀ (pts : List Point) (st : Store),
      (st.map Point.id).Nodup →
      InvLatest st →
      (pts.map (fun q => q.pl.logical_id)).Nodup →
      (∀ q ∈ pts, lidLatestCount st q.pl.logical_id = 0) →
      InvLatest (pts.foldl upsertOne st) := by
  intro pts
  induction pts with
  | nil =>
    intro st _ hinv _ _
    rw [List.foldl_nil]
    exact hinv
  | cons q pts ih =>
    intro st hnodup hinv hlids hzero
    have hlids' : q.pl.logical_id ∉ pts.map (fun q => q.pl.logical_id) ∧
        (pts.map (fun q => q.pl.logical_id)).Nodup := by
      rw [List.map_cons] at hlids
      exact List.nodup_cons.mp hlids
    rw [List.foldl_cons]
    refine ih (upsertOne st q) (upsertOne_nodup hnodup) ?_ hlids'.2 ?_
    · intro r b l
      by_cases hl : q.pl.logical_id = l
      · have hzq : lidLatestCount st l = 0 := by
          rw [← hl]
          exact hzero q (List.mem_cons_self q pts)
        have hfil : st.filter
            (fun p => decide (p.pl.logical_id = l) && (p.pl.is_latest == true)) = [] :=
          List.length_eq_zero.mp hzq
        have hall : ∀ p ∈ st, (decide (p.pl.repo = r) && decide (p.pl.branch = b) &&
            decide (p.pl.logical_id = l) && (p.pl.is_latest == true)) = false := by
          intro p hp
          cases hPp : (decide (p.pl.repo = r) && decide (p.pl.branch = b) &&
              decide (p.pl.logical_id = l) && (p.pl.is_latest == true)) with
          | false => rfl
          | true =>
            exfalso
            simp only [Bool.and_eq_true] at hPp
            have hmem : p ∈ st.filter
                (fun p => decide (p.pl.logical_id = l) && (p.pl.is_latest == true)) :=
              List.mem_filter.mpr ⟨hp, by
                simp only [Bool.and_eq_true]
                exact ⟨hPp.1.2, hPp.2⟩⟩
            rw [hfil] at hmem
            cases hmem
        exact upsertOne_countP_le_one hnodup hall
      · have hq : (decide (q.pl.repo = r) && decide (q.pl.branch = b) &&
            decide (q.pl.logical_id = l) && (q.pl.is_latest == true)) = false := by
          simp [hl]
        exact le_trans (upsertOne_countP_le hq) (hinv r b l)
    · intro q' hq'
      have hne : q.pl.logical_id ≠ q'.pl.logical_id := by
        intro he
        exact hlids'.1 (by rw [he]; exact List.mem_map_of_mem _ hq')
      have hq0 : lidLatestCount st q'.pl.logical_id = 0 :=
        hzero q' (List.mem_cons_of_mem q hq')
      have hqP : (decide (q.pl.logical_id = q'.pl.logical_id) &&
          (q.pl.is_latest == true)) = false := by
        simp [hne]
      have hle : lidLatestCount (upsertOne st q) q'.pl.logical_id
          ≤ lidLatestCount st q'.pl.logical_id := upsertOne_countP_le hqP
      omega

lemma demotePhase_pts (repoName branch commitSha : Str) (cs : List Chunk) (st : Store) :
    (demotePhase repoName branch commitSha cs (st, [])).2
      = cs.map (fun c => mkPoint repoName c branch commitSha) := by
  have h := (embedCommit_phase_spec repoName branch commitSha cs st []).2
  exact h.trans (List.nil_append _)

lemma setLines_latestKeyCount (st : Store) (ids : List Str) (lv : Int × Int) (r b l : Str) :
    latestKeyCount (setLines st ids lv) r b l = latestKeyCount st r b l := by
  unfold latestKeyCount setLines
  refine countP_filter_map_eq ?_ st
  intro p
  by_cases hid : p.id ∈ ids
  · simp [hid]
  · simp [hid]

lemma posPatch_latestKeyCount (r b l : Str) :
    ∀ (pairs : List (Chunk × Range)) (st : Store),
      latestKeyCount (posPatch st pairs) r b l = latestKeyCount st r b l := by
  intro pairs
  induction pairs with
  | nil =>
    intro st
    rfl
  | cons cr pairs ih =>
    intro st
    by_cases hnil : scroll_by_logical st cr.1.logical_id true = []
    · have hstep : posPatch st (cr :: pairs) = posPatch st pairs := by
        show posPatch (if scroll_by_logical st cr.1.logical_id true = [] then st
          else setLines st ((scroll_by_logical st cr.1.logical_id true).map Point.id)
            (cr.2.start_line, cr.2.end_line)) pairs = _
        rw [if_pos hnil]
      rw [hstep]
      exact ih st
    · have hstep : posPatch st (cr :: pairs)
          = posPatch (setLines st ((scroll_by_logical st cr.1.logical_id true).map Point.id)
              (cr.2.start_line, cr.2.end_line)) pairs := by
        show posPatch (if scroll_by_logical st cr.1.logical_id true = [] then st
          else setLines st ((scroll_by_logical st cr.1.logical_id true).map Point.id)
            (cr.2.start_line, cr.2.end_line)) pairs = _
        rw [if_neg hnil]
      rw [hstep, ih]
      exact setLines_latestKeyCount st _ _ r b l

lemma deletePoints_latestKeyCount_le (st : Store) (ids : List Str) (r b l : Str) :
    latestKeyCount (deletePoints st ids) r b l ≤ latestKeyCount st r b l := by
  unfold latestKeyCount deletePoints
  exact List.Sublist.length_le (List.Sublist.filter _ (List.filter_sublist st))

/-- Claim C1 (amended): the demote-then-upsert loop of the INCREMENTAL
embed path preserves the at-most-one-latest invariant — given unique point
ids, pairwise distinct chunk logical ids, and at most 100 pre-existing
latest points per logical id (one scroll page), `embedCommit` first demotes
every latest point of each chunk's logical id and only then upserts the new
latest points, so `InvLatest` is preserved; the position-only patch leaves
every latest count exactly unchanged, and deletion can only lower it.
(The FULL-index path, by contrast, never demotes and violates the
invariant — see the counterexample.) -/
theorem claim_C1_amended :
    (∀ (st : Store) (repoName : Str) (cs : List Chunk) (branch sha : Str),
        InvLatest st → (st.map Point.id).Nodup →
        (cs.map Chunk.logical_id).Nodup →
        (∀ c ∈ cs, lidLatestCount st c.logical_id ≤ 100) →
        InvLatest (embedCommit st repoName cs branch sha)) ∧
    (∀ (st : Store) (pairs : List (Chunk × Range)) (r b l : Str),
        latestKeyCount (posPatch st pairs) r b l = latestKeyCount st r b l) ∧
    (∀ (st : Store) (ids : List Str) (r b l : Str),
        latestKeyCount (deletePoints st ids) r b l ≤ latestKeyCount st r b l) := by
  refine ⟨?_, ?_, ?_⟩
  · intro st repoName cs branch sha hinv hnodup hlidnd h100
    obtain ⟨hd1, hd2, hd3, hd4⟩ := demotePhase_counts repoName branch sha cs st [] h100
    have hpts := demotePhase_pts repoName branch sha cs st
    show InvLatest (upsert_points (demotePhase repoName branch sha cs (st, [])).1
      (demotePhase repoName branch sha cs (st, [])).2)
    unfold upsert_points
    apply upsertPhase_inv
    · rw [hd4]
      exact hnodup
    · intro r b l
      exact le_trans (hd1 r b l) (hinv r b l)
    · rw [hpts, List.map_map]
      have hcomp : ((fun (q : Point) => q.pl.logical_id) ∘
          (fun c => mkPoint repoName c branch sha)) = Chunk.logical_id := by
        funext c
        rfl
      rw [hcomp]
      exact hlidnd
    · intro q hq
      rw [hpts] at hq
      rcases List.mem_map.mp hq with ⟨c, hc, he⟩
      rw [← he]
      exact hd3 c hc
  · intro st pairs r b l
    exact posPatch_latestKeyCount r b l pairs st
  · intro st ids r b l
    exact deletePoints_latestKeyCount_le st ids r b l

/-- Witness: the amended C1 theorem applied at the empty store and the
chunks of a one-line file — all four hypotheses hold there. -/
theorem claim_C1_amended_witness :
    InvLatest (embedCommit [] ("r").data
      (chunkerChunks ("a\n").data ("f.txt").data ("r").data) ("main").data ("c0").data) :=
  claim_C1_amended.1 [] (("r").data)
    (chunkerChunks ("a\n").data ("f.txt").data ("r").data) (("main").data) (("c0").data)
    (fun _ _ _ => Nat.zero_le 1)
    List.nodup_nil
    (by decide)
    (fun _ _ => Nat.zero_le 100)
